import Mathlib

/-!
Shallow embedding of the erag knowledge-graph construction engine (src/kg.py)
and hybrid retrieval engine (src/src/search_utils.py), with theorems checking
the natural-language specification's claims against the code.

Modelling conventions:
* Python floats are modelled as rationals (ℚ); the constants 0.7, 0.1, 0.2,
  0.5 of the source appear as 7/10, 1/10, 1/5, 1/2.
* The external spaCy pipeline (`nlp`) is modelled as a parameter producing a
  structured document (sentences with typed entity spans); the syntactic
  relation pass `extract_relations`, which depends on spaCy parse trees
  (token subtrees, lemmas, part-of-speech tags), is likewise a parameter.
* The sentence-transformers cosine `util.pytorch_cos_sim` is a parameter
  `cos`; theorems that need its mathematical properties (symmetry, values
  bounded by 1) take them as hypotheses.
* networkx `Graph` is modelled as association lists of nodes and undirected
  edges; `add_node` / `add_edge` follow networkx's attribute-update
  semantics (an existing node/edge has the supplied attributes overwritten,
  unsupplied ones kept).
* Python exceptions (IndexError from `embeddings[i]`, KeyError from
  `d['type']`) are modelled with `Except`.
-/

/-- Characters matched by the regex `\w` of `re.findall(r'\w+', ...)`:
letters, digits and underscore (ASCII model of the source's tokenization). -/
def isWordChar (c : Char) : Bool := c.isAlphanum || c = '_'

/-- Python `s.lower()` (per-character lowercasing). -/
def lowerStr (s : String) : String := String.mk (s.data.map Char.toLower)

def tokensByAux (p : Char → Bool) : List Char → List Char → List String
  | [], acc => if acc.isEmpty then [] else [String.mk acc.reverse]
  | c :: cs, acc =>
    if p c then tokensByAux p cs (c :: acc)
    else if acc.isEmpty then tokensByAux p cs []
    else String.mk acc.reverse :: tokensByAux p cs []

/-- Maximal runs of characters satisfying `p`: models Python `str.split()`
(with `p` = not-whitespace) and `re.findall(r'\w+', s)` (with `p` = `\w`). -/
def tokensBy (p : Char → Bool) (s : String) : List String :=
  tokensByAux p s.data []

def isPrefixChars : List Char → List Char → Bool
  | [], _ => true
  | _ :: _, [] => false
  | a :: as, b :: bs => a = b && isPrefixChars as bs

def infixChars (p : List Char) : List Char → Bool
  | [] => isPrefixChars p []
  | c :: cs => isPrefixChars p (c :: cs) || infixChars p cs

/-- Python's substring test `needle in hay`. -/
def strContains (hay needle : String) : Bool := infixChars needle.data hay.data

/-- Python's prefix test, used to state "the result starts with ...". -/
def strStartsWith (s pre : String) : Bool := isPrefixChars pre.data s.data

/-- Python `s.strip()`: remove leading and trailing whitespace. -/
def pyStrip (s : String) : String :=
  String.mk (((s.data.dropWhile Char.isWhitespace).reverse.dropWhile Char.isWhitespace).reverse)

def digitsRevAux (fuel n : Nat) : List Nat :=
  match fuel with
  | 0 => [n]
  | fuel + 1 => if n < 10 then [n] else (n % 10) :: digitsRevAux fuel (n / 10)

/-- Decimal digits of `n`, least significant first (structural recursion on a
fuel argument so that concrete values reduce). -/
def digitsRev (n : Nat) : List Nat := digitsRevAux n n

/-- Python `str(n)` for a natural number (decimal rendering of `f"doc_{i}"`). -/
def natStr (n : Nat) : String := String.mk ((digitsRev n).reverse.map Nat.digitChar)

/-- The chunk node identifier `f"doc_{i}"` of `create_networkx_graph`. -/
def docName (i : Nat) : String := "doc_" ++ natStr i

theorem digitsRevAux_small {n : Nat} (f : Nat) (h : n < 10) : digitsRevAux f n = [n] := by
  cases f with
  | zero => rfl
  | succ f => simp [digitsRevAux, h]

theorem digitsRevAux_congr :
    ∀ n f1 f2 : Nat, n ≤ f1 → n ≤ f2 → digitsRevAux f1 n = digitsRevAux f2 n := by
  intro n
  induction n using Nat.strong_induction_on with
  | _ n ih =>
    intro f1 f2 h1 h2
    by_cases hn : n < 10
    · rw [digitsRevAux_small f1 hn, digitsRevAux_small f2 hn]
    · cases f1 with
      | zero => omega
      | succ a =>
        cases f2 with
        | zero => omega
        | succ b =>
          simp only [digitsRevAux, if_neg hn]
          have hd : n / 10 < n := Nat.div_lt_self (by omega) (by omega)
          rw [ih (n / 10) hd a b (by omega) (by omega)]

theorem digitsRev_small {n : Nat} (h : n < 10) : digitsRev n = [n] :=
  digitsRevAux_small n h

theorem digitsRev_large {n : Nat} (h : ¬ n < 10) :
    digitsRev n = (n % 10) :: digitsRev (n / 10) := by
  unfold digitsRev
  cases hn : n with
  | zero => omega
  | succ m =>
    rw [← hn]
    have : digitsRevAux n n = digitsRevAux (m + 1) n := by
      rw [hn]
    rw [this]
    simp only [digitsRevAux]
    rw [digitsRevAux_congr (n / 10) m (n / 10) (by omega) (le_refl _), if_neg h]

theorem digitsRev_ne_nil (n : Nat) : digitsRev n ≠ [] := by
  by_cases h : n < 10
  · rw [digitsRev_small h]; simp
  · rw [digitsRev_large h]; simp

theorem digitsRev_lt10 (n : Nat) : ∀ x ∈ digitsRev n, x < 10 := by
  induction n using Nat.strong_induction_on with
  | _ n ih =>
    by_cases h : n < 10
    · rw [digitsRev_small h]; simpa using h
    · rw [digitsRev_large h]
      intro x hx
      rcases List.mem_cons.mp hx with h1 | h2
      · omega
      · exact ih (n / 10) (Nat.div_lt_self (by omega) (by omega)) x h2

theorem digitsRev_inj : ∀ a b : Nat, digitsRev a = digitsRev b → a = b := by
  intro a
  induction a using Nat.strong_induction_on with
  | _ a ih =>
    intro b heq
    by_cases ha : a < 10 <;> by_cases hb : b < 10
    · rw [digitsRev_small ha, digitsRev_small hb] at heq
      simpa using heq
    · rw [digitsRev_small ha, digitsRev_large hb] at heq
      exact absurd (List.cons.inj heq).2.symm (digitsRev_ne_nil (b / 10))
    · rw [digitsRev_large ha, digitsRev_small hb] at heq
      exact absurd (List.cons.inj heq).2 (digitsRev_ne_nil (a / 10))
    · rw [digitsRev_large ha, digitsRev_large hb] at heq
      obtain ⟨h1, h2⟩ := List.cons.inj heq
      have h3 : a / 10 = b / 10 :=
        ih (a / 10) (Nat.div_lt_self (by omega) (by omega)) (b / 10) h2
      omega

theorem digitChar_inj_lt10 : ∀ x < 10, ∀ y < 10,
    Nat.digitChar x = Nat.digitChar y → x = y := by
  decide

theorem map_digitChar_inj : ∀ l1 l2 : List Nat, (∀ x ∈ l1, x < 10) → (∀ x ∈ l2, x < 10) →
    l1.map Nat.digitChar = l2.map Nat.digitChar → l1 = l2 := by
  intro l1
  induction l1 with
  | nil => intro l2 _ _ h; cases l2 <;> simp_all
  | cons a as iha =>
    intro l2 h1 h2 h
    cases l2 with
    | nil => simp_all
    | cons b bs =>
      simp only [List.map_cons, List.cons.injEq] at h
      have hab : a = b :=
        digitChar_inj_lt10 a (h1 a (by simp)) b (h2 b (by simp)) h.1
      have : as = bs := by
        refine iha bs (fun x hx => h1 x (by simp [hx])) (fun x hx => h2 x (by simp [hx])) h.2
      simp [hab, this]

theorem natStr_inj : ∀ a b : Nat, natStr a = natStr b → a = b := by
  intro a b h
  unfold natStr at h
  have hd : (digitsRev a).reverse.map Nat.digitChar = (digitsRev b).reverse.map Nat.digitChar := by
    have := congrArg String.data h
    simpa using this
  have : (digitsRev a).reverse = (digitsRev b).reverse := by
    refine map_digitChar_inj _ _ ?_ ?_ hd
    · intro x hx; exact digitsRev_lt10 a x (List.mem_reverse.mp hx)
    · intro x hx; exact digitsRev_lt10 b x (List.mem_reverse.mp hx)
  exact digitsRev_inj a b (List.reverse_inj.mp this)

theorem docName_inj : ∀ a b : Nat, docName a = docName b → a = b := by
  intro a b h
  unfold docName at h
  have hd := congrArg String.data h
  simp only [String.data_append] at hd
  have : (natStr a).data = (natStr b).data := List.append_cancel_left hd
  exact natStr_inj a b (by cases ha : natStr a; cases hb : natStr b; simp_all)

/-- Stable insertion: `x` is placed before the first `y` with `le x y`.
With `le x y := key y ≤ key x` this models Python's stable
`sorted(..., key=key, reverse=True)`; with `le x y := key x ≤ key y` it
models a stable ascending sort. -/
def insertS (le : α → α → Bool) (x : α) : List α → List α
  | [] => [x]
  | y :: ys => if le x y then x :: y :: ys else y :: insertS le x ys

/-- Stable sort (model of Python's `sorted` / the length-preserving part of
numpy `argsort`): earlier elements are inserted in front of ties. -/
def isort (le : α → α → Bool) : List α → List α
  | [] => []
  | x :: xs => insertS le x (isort le xs)

theorem mem_insertS (le : α → α → Bool) (x y : α) :
    ∀ l, y ∈ insertS le x l ↔ y = x ∨ y ∈ l := by
  intro l
  induction l with
  | nil => simp [insertS]
  | cons a as ih =>
    by_cases h : le x a = true
    · simp [insertS, h]
    · simp only [insertS, if_neg h, List.mem_cons, ih]
      tauto

theorem mem_isort (le : α → α → Bool) (y : α) : ∀ l, y ∈ isort le l ↔ y ∈ l := by
  intro l
  induction l with
  | nil => simp [isort]
  | cons a as ih => simp [isort, mem_insertS, ih]

theorem length_insertS (le : α → α → Bool) (x : α) :
    ∀ l, (insertS le x l).length = l.length + 1 := by
  intro l
  induction l with
  | nil => simp [insertS]
  | cons a as ih =>
    by_cases h : le x a = true <;> simp [insertS, h, ih]

theorem length_isort (le : α → α → Bool) : ∀ l : List α, (isort le l).length = l.length := by
  intro l
  induction l with
  | nil => simp [isort]
  | cons a as ih => simp [isort, length_insertS, ih]

theorem insertS_congr (le1 le2 : α → α → Bool) (x : α) :
    ∀ l, (∀ y ∈ l, le1 x y = le2 x y) → insertS le1 x l = insertS le2 x l := by
  intro l
  induction l with
  | nil => simp [insertS]
  | cons a as ih =>
    intro h
    have ha := h a (by simp)
    by_cases h1 : le1 x a = true
    · simp [insertS, h1, ha ▸ h1]
    · have h2 : le2 x a ≠ true := fun hc => h1 (ha ▸ hc)
      simp only [insertS, if_neg h1, if_neg h2]
      rw [ih (fun y hy => h y (by simp [hy]))]

theorem isort_congr (le1 le2 : α → α → Bool) :
    ∀ l, (∀ x ∈ l, ∀ y ∈ l, le1 x y = le2 x y) → isort le1 l = isort le2 l := by
  intro l
  induction l with
  | nil => simp [isort]
  | cons a as ih =>
    intro h
    have h1 : isort le1 as = isort le2 as :=
      ih (fun x hx y hy => h x (by simp [hx]) y (by simp [hy]))
    rw [isort, isort, h1]
    refine insertS_congr le1 le2 a _ (fun y hy => ?_)
    have : y ∈ as := (mem_isort le2 y as).mp hy
    exact h a (by simp) y (by simp [this])

/-- A stable descending sort of a strictly increasing list of indices equals
sorting by the lexicographic order (key descending, index ascending): the
stability tie-break is exactly the index order. -/
theorem isort_stable_eq_lex (k : Nat → Nat) :
    ∀ l : List Nat, l.Pairwise (· < ·) →
      isort (fun i j => decide (k j ≤ k i)) l =
      isort (fun i j => decide (k j < k i) || (decide (k i = k j) && decide (i ≤ j))) l := by
  intro l
  induction l with
  | nil => simp [isort]
  | cons a as ih =>
    intro hp
    have hp' := (List.pairwise_cons.mp hp).2
    have hlt := (List.pairwise_cons.mp hp).1
    rw [isort, isort, ih hp']
    refine insertS_congr _ _ a _ (fun y hy => ?_)
    have hya : a < y := hlt y ((mem_isort _ y as).mp hy)
    by_cases h2 : k y < k a
    · simp [Nat.le_of_lt h2, h2]
    · by_cases h3 : k a = k y
      · have h4 : k y ≤ k a := by omega
        simp [h2, h3, h4, Nat.le_of_lt hya]
      · have h4 : ¬ k y ≤ k a := by omega
        simp [h2, h3, h4]

/-! ## Model of the spaCy document structure (external NER/parse collaborator)

`kg.py` calls `nlp = spacy.load(...)`; a parsed document exposes sentences
(`doc.sents`), each with its entity spans (`sent.ents`, with `.text` and
`.label_`), and `doc.ents` is the concatenation of the sentences' entities. -/

structure PEnt where
  text : String
  label : String
deriving DecidableEq

structure PSent where
  text : String
  ents : List PEnt
deriving DecidableEq

structure NlpDoc where
  sents : List PSent
deriving DecidableEq

def NlpDoc.ents (d : NlpDoc) : List PEnt := d.sents.flatMap (·.ents)

/-- `kg.py` line 26: `' '.join(text.split())`. -/
def preprocess_text (text : String) : String :=
  String.intercalate " " (tokensBy (fun c => !c.isWhitespace) text)

/-- `kg.py` lines 18-24: the family-relation keyword vocabulary. -/
def FAMILY_RELATIONS : List String :=
  ["sister", "sisters", "brother", "brothers", "father", "mother", "parent", "parents",
   "son", "sons", "daughter", "daughters", "husband", "wife", "spouse",
   "grandfather", "grandmother", "grandparent", "grandparents",
   "grandson", "granddaughter", "grandchild", "grandchildren",
   "uncle", "aunt", "cousin", "cousins", "niece", "nephew"]

/-- `kg.py` lines 29-35: filter the NER output to the fixed category allow-list. -/
def extract_key_entities (d : NlpDoc) : List (String × String) :=
  (d.ents.filter (fun e =>
    e.label ∈ ["PERSON", "ORG", "GPE", "LOC", "PRODUCT", "EVENT", "WORK_OF_ART"])).map
    (fun e => (e.text, e.label))

/-- A (subject, relation, object) triple. -/
abbrev Triple := String × String × String

/-- Ordered pairs `(l[i], l[j])` with `i < j`: the double loop
`for i, e1 in enumerate(entities): for j in range(i+1, len(entities))`. -/
def pairsOf : List α → List (α × α)
  | [] => []
  | x :: xs => xs.map (fun y => (x, y)) ++ pairsOf xs

/-- `kg.py` lines 82-87: the reverse-relation rules applied after a primary
family triple `(e1, rel, e2)` is emitted. -/
def familyRecip (e1 e2 rel : String) : List Triple :=
  if rel = "sister" ∨ rel = "brother" then [(e2, rel, e1)]
  else if rel = "parent" then [(e2, "child", e1)]
  else if rel = "child" then [(e2, "parent", e1)]
  else []

/-- The triples the family pass emits for one entity pair and one matched
keyword: the primary triple followed by its reverse relations. -/
def familyEmit (e1 e2 rel : String) : List Triple :=
  (e1, rel, e2) :: familyRecip e1 e2 rel

/-- `kg.py` lines 69-89 (`extract_family_relations`): per sentence, restrict
to PERSON entities; for every ordered pair (i < j) and every family keyword
contained as a substring in the lowercased sentence text, emit the primary
triple and the reverse relations. -/
def extract_family_relations (d : NlpDoc) : List Triple :=
  d.sents.flatMap (fun s =>
    let persons := (s.ents.filter (fun e => e.label = "PERSON")).map (·.text)
    (pairsOf persons).flatMap (fun p =>
      (FAMILY_RELATIONS.filter (fun rel => strContains (lowerStr s.text) rel)).flatMap
        (fun rel => familyEmit p.1 p.2 rel)))

/-! ## Model of the networkx graph

Nodes carry an attribute bag; the attributes actually used by the code are
`type`, `text`, `entity_type` and `confidence` (the last is read with a
default by the retrieval code but never written by the builder). Edges are
undirected, keyed by their endpoint pair, with attributes `relation` and an
optional `weight`. `add_node`/`add_edge` on an existing node/edge update the
stored attribute dict (supplied keys overwritten, others kept). -/

structure NodeAttr where
  type : Option String := none
  text : Option String := none
  entity_type : Option String := none
  confidence : Option ℚ := none
deriving DecidableEq

structure EdgeAttr where
  relation : String
  weight : Option ℚ := none
deriving DecidableEq

structure Graph where
  nodes : List (String × NodeAttr)
  edges : List (String × String × EdgeAttr)
deriving DecidableEq

def nxEmpty : Graph := ⟨[], []⟩

def Graph.hasNode (g : Graph) (n : String) : Bool := g.nodes.any (fun p => p.1 = n)

def Graph.getNode? (g : Graph) (n : String) : Option NodeAttr :=
  (g.nodes.find? (fun p => p.1 = n)).map (·.2)

/-- networkx `G.add_node(name, **attrs)`: update the attributes if the node
exists, else append it (insertion order is preserved, as in a Python dict). -/
def Graph.addNodeWith (g : Graph) (n : String) (f : NodeAttr → NodeAttr) : Graph :=
  if g.hasNode n then
    { g with nodes := g.nodes.map (fun p => if p.1 = n then (p.1, f p.2) else p) }
  else
    { g with nodes := g.nodes ++ [(n, f {})] }

/-- `G.add_node(doc_node, type='document', text=chunk)`. -/
def Graph.addDocNode (g : Graph) (n : String) (text : String) : Graph :=
  g.addNodeWith n (fun a => { a with type := some "document", text := some text })

/-- `if not G.has_node(entity): G.add_node(entity, type='entity', entity_type=...)`. -/
def Graph.addEntityNode (g : Graph) (n : String) (etype : String) : Graph :=
  if g.hasNode n then g
  else g.addNodeWith n (fun a => { a with type := some "entity", entity_type := some etype })

/-- networkx creates attribute-less endpoints of `add_edge` when missing. -/
def Graph.ensureNode (g : Graph) (n : String) : Graph :=
  if g.hasNode n then g else { g with nodes := g.nodes ++ [(n, {})] }

def edgeKeyMatch (u v : String) (e : String × String × EdgeAttr) : Bool :=
  (e.1 = u && e.2.1 = v) || (e.1 = v && e.2.1 = u)

def Graph.edgeAttr? (g : Graph) (u v : String) : Option EdgeAttr :=
  (g.edges.find? (edgeKeyMatch u v)).map (·.2.2)

def Graph.edgeRel? (g : Graph) (u v : String) : Option String :=
  (g.edgeAttr? u v).map (·.relation)

/-- networkx `G.add_edge(u, v, relation=rel[, weight=w])` on an undirected
graph: the endpoints are created if missing; if an edge between the pair
exists its attribute dict is updated (`relation` always supplied, `weight`
only for similarity edges), else a new edge is appended. -/
def Graph.addEdge (g : Graph) (u v rel : String) (w : Option ℚ) : Graph :=
  let g1 := (g.ensureNode u).ensureNode v
  if g1.edges.any (edgeKeyMatch u v) then
    { g1 with edges := g1.edges.map (fun e =>
        if edgeKeyMatch u v e then
          (e.1, e.2.1, { relation := rel, weight := match w with
                                                    | some x => some x
                                                    | none => e.2.2.weight })
        else e) }
  else
    { g1 with edges := g1.edges ++ [(u, v, { relation := rel, weight := w })] }

/-- `for subj, rel, obj in triples: G.add_edge(subj, obj, relation=rel)`. -/
def applyTriples (g : Graph) (ts : List Triple) : Graph :=
  ts.foldl (fun g t => g.addEdge t.1 t.2.2 t.2.1 none) g

/-- `kg.py` lines 122-126 (`prune_graph`): remove every edge carrying an
explicit `weight` attribute strictly below the threshold. -/
def prune_graph (g : Graph) (min_edge_weight : ℚ) : Graph :=
  { g with edges := g.edges.filter (fun e =>
      !(match e.2.2.weight with
        | some w => decide (w < min_edge_weight)
        | none => false)) }

/-! ## create_networkx_graph (kg.py lines 91-120)

The spaCy pipeline is the parameter `nlp`; the syntactic relation pass
`extract_relations` (kg.py lines 37-67), which depends on spaCy parse trees,
is the parameter `rels` taking the preprocessed chunk text and its key
entities. Python's `IndexError` (similarity pass indexing `embeddings[i]`
past the end) and `KeyError` (`d['type']` on a node without a `type`
attribute, kg.py line 112) are the two ways the build can raise. -/

inductive BuildError where
  | indexError : BuildError
  | keyError : BuildError
deriving DecidableEq

/-- The per-chunk body of the loop at kg.py lines 94-109: preprocess, extract,
add the document node, the entity nodes with their contains edges, then the
concatenated relation triples. -/
def processChunk (nlp : String → NlpDoc) (rels : String → List (String × String) → List Triple)
    (g : Graph) (i : Nat) (chunk : String) : Graph :=
  let chunk' := preprocess_text chunk
  let key_entities := extract_key_entities (nlp chunk')
  let triples := rels chunk' key_entities
  let family_triples := extract_family_relations (nlp chunk')
  let g1 := g.addDocNode (docName i) chunk'
  let g2 := key_entities.foldl
    (fun g p => (g.addEntityNode p.1 p.2).addEdge (docName i) p.1 "contains" none) g1
  applyTriples g2 (triples ++ family_triples)

def phase1Aux (nlp : String → NlpDoc) (rels : String → List (String × String) → List Triple)
    (g : Graph) (i : Nat) : List String → Graph
  | [] => g
  | c :: cs => phase1Aux nlp rels (processChunk nlp rels g i c) (i + 1) cs

/-- The `for i, chunk in enumerate(data)` loop of kg.py lines 94-109. -/
def phase1 (nlp : String → NlpDoc) (rels : String → List (String × String) → List Triple)
    (data : List String) : Graph :=
  phase1Aux nlp rels nxEmpty 0 data

/-- Index pairs of the similarity double loop
`for i, node1 in enumerate(doc_nodes): for j in range(i+1, len(doc_nodes))`. -/
def idxPairs (n : Nat) : List (Nat × Nat) :=
  (List.range n).flatMap (fun i => (List.range' (i + 1) (n - (i + 1))).map (fun j => (i, j)))

/-- kg.py lines 113-118: for each index pair into the document-node list,
read `embeddings[i]` and `embeddings[j]` (IndexError when out of range),
compute their cosine similarity, and add a `similar` edge when it exceeds
0.7. -/
def addSimPairs {E : Type} (docs : List String) (emb : List E) (cos : E → E → ℚ)
    (g : Graph) : List (Nat × Nat) → Except BuildError Graph
  | [] => .ok g
  | (i, j) :: rest =>
    match emb[i]?, emb[j]? with
    | some ei, some ej =>
      let similarity := cos ei ej
      addSimPairs docs emb cos
        (if 7/10 < similarity then
          g.addEdge (docs.getD i "") (docs.getD j "") "similar" (some similarity)
        else g) rest
    | _, _ => .error .indexError

/-- The document-node list comprehension at kg.py line 112:
`[n for n, d in G.nodes(data=True) if d['type'] == 'document']`; accessing
`d['type']` raises KeyError if any node lacks the attribute. -/
def docNodesOf (g : Graph) : Except BuildError (List String) :=
  if g.nodes.any (fun p => p.2.type = none) then .error .keyError
  else .ok (((g.nodes.filter (fun p => p.2.type = some "document")).map (·.1)))

/-- kg.py lines 91-120 (`create_networkx_graph`): the per-chunk pass followed
by the pairwise similarity pass over document nodes. -/
def create_networkx_graph {E : Type} (nlp : String → NlpDoc)
    (rels : String → List (String × String) → List Triple)
    (data : List String) (embeddings : List E) (cos : E → E → ℚ) :
    Except BuildError Graph := do
  let g := phase1 nlp rels data
  let doc_nodes ← docNodesOf g
  addSimPairs doc_nodes embeddings cos g (idxPairs doc_nodes.length)

/-! ## Hybrid retrieval engine (src/src/search_utils.py)

`settings` (the external configuration collaborator) and the constructor
state of `SearchUtils` are explicit parameters. `self.model` is modelled by
an optional `encode` function (the `hasattr(self.model, 'encode')` check).
numpy's `argsort` is modelled with the stable `isort`; its tie order among
equal scores is not fixed by the source (numpy quicksort), and no theorem
below depends on it. -/

structure Settings where
  enable_lexical_search : Bool := true
  enable_semantic_search : Bool := true
  enable_graph_search : Bool := true
  enable_text_search : Bool := true
  top_k : Nat := 5
  entity_relevance_threshold : ℚ := 1/2

structure SearchUtils where
  encode : Option (String → List ℚ) := none
  db_embeddings : List (List ℚ) := []
  db_content : List String := []
  knowledge_graph : Graph := nxEmpty

/-- numpy `arr.size` of the `(N, D)` embeddings array. -/
def embSize (su : SearchUtils) : Nat := (su.db_embeddings.map List.length).sum

/-- Python `arr[-k:]` (for a natural `k`): with `k = 0` this is the whole
list, otherwise the last `min k n` elements. -/
def takeLastPy (k : Nat) (l : List α) : List α :=
  if k = 0 then l else l.drop (l.length - k)

/-- The word-set of Python `set(re.findall(r'\w+', s.lower()))`, as a
duplicate-free list. -/
def wordSet (s : String) : List String := (tokensBy isWordChar (lowerStr s)).dedup

/-- `len(a.intersection(b))` for the word-sets of two strings. -/
def overlapCount (qw : List String) (ctx : String) : Nat :=
  (qw.filter (fun w => w ∈ wordSet ctx)).length

/-- search_utils.py lines 80-91 (`lexical_search`): word-set overlap scores,
Python's stable `sorted(range(n), key=score, reverse=True)`, top_k, strip. -/
def lexical_search (st : Settings) (su : SearchUtils) (query : String) : List String :=
  if st.enable_lexical_search = false then []
  else
    let query_words := wordSet query
    let overlap_scores := su.db_content.map (fun context => overlapCount query_words context)
    let top_indices :=
      (isort (fun i j => decide (overlap_scores.getD j 0 ≤ overlap_scores.getD i 0))
        (List.range overlap_scores.length)).take st.top_k
    top_indices.map (fun i => pyStrip (su.db_content.getD i ""))

def dotQ (a b : List ℚ) : ℚ := ((a.zip b).map (fun p => p.1 * p.2)).sum

/-- search_utils.py lines 93-108 (`semantic_search`): with an `encode`-capable
model, dot-product scores against every stored embedding and
`argsort()[-top_k:][::-1]`; otherwise the keyword-count fallback. -/
def semantic_search (st : Settings) (su : SearchUtils) (query : String) : List String :=
  if st.enable_semantic_search = false then []
  else
    match su.encode with
    | some enc =>
      let input_embedding := enc query
      let cos_scores := su.db_embeddings.map (fun e => dotQ e input_embedding)
      let top_indices :=
        (takeLastPy st.top_k
          (isort (fun i j => decide (cos_scores.getD i 0 ≤ cos_scores.getD j 0))
            (List.range cos_scores.length))).reverse
      top_indices.map (fun idx => pyStrip (su.db_content.getD idx ""))
    | none =>
      let query_words := (tokensBy (fun c => !c.isWhitespace) (lowerStr query)).dedup
      let scores := su.db_content.map (fun content =>
        (query_words.filter (fun word => strContains (lowerStr content) word)).length)
      let top_indices :=
        (isort (fun i j => decide (scores.getD j 0 ≤ scores.getD i 0))
          (List.range scores.length)).take st.top_k
      top_indices.map (fun idx => pyStrip (su.db_content.getD idx ""))

/-- `self.knowledge_graph.nodes[n]['type']` as an optional lookup (the code
raises KeyError when the node or attribute is missing; every theorem about
graphs with untyped nodes carries a well-typedness hypothesis). -/
def nodeTypeOf (g : Graph) (n : String) : Option String :=
  (g.getNode? n).bind (·.type)

/-- networkx `G.neighbors(n)` in adjacency insertion order. -/
def Graph.neighbors (g : Graph) (n : String) : List String :=
  g.edges.filterMap (fun e =>
    if e.1 = n then some e.2.1 else if e.2.1 = n then some e.1 else none)

/-- search_utils.py lines 182-186 (`get_parent_document`): the first neighbor
typed `document`, or Python `None`. -/
def get_parent_document (g : Graph) (chunk_node : String) : Option String :=
  (g.neighbors chunk_node).find? (fun n => nodeTypeOf g n = some "document")

/-- search_utils.py line 124: neighbors of the node whose type is `chunk`. -/
def connectedChunks (g : Graph) (node : String) : List String :=
  (g.neighbors node).filter (fun n => nodeTypeOf g n = some "chunk")

/-- search_utils.py line 125: the set of parent documents of the connected
chunks (a Python set; only its cardinality is used). -/
def connectedDocs (g : Graph) (node : String) : List (Option String) :=
  ((connectedChunks g node).map (fun chunk => get_parent_document g chunk)).dedup

/-- search_utils.py lines 123-130: the relevance score of one entity node. -/
def relevance_score (g : Graph) (query : String) (node : String) (data : NodeAttr) : ℚ :=
  let confidence := data.confidence.getD (1/2)
  ((if strContains (lowerStr query) (lowerStr node) then 1 else 0)
    + (connectedChunks g node).length * (1/10)
    + (connectedDocs g node).length * (1/5)) * confidence

/-- search_utils.py lines 119-133: the entity nodes passing the relevance
threshold, with their type, connected chunks and score, in node order. -/
def nodeScores (st : Settings) (g : Graph) (query : String) :
    List (String × String × List String × ℚ) :=
  g.nodes.filterMap (fun p =>
    if p.2.type = some "entity" then
      let score := relevance_score g query p.1 p.2
      if st.entity_relevance_threshold ≤ score then
        some (p.1, p.2.entity_type.getD "Unknown", connectedChunks g p.1, score)
      else none
    else none)

/-- search_utils.py lines 137-149: the textual bundle built for one retained
entity. -/
def entityBundle (g : Graph) (e : String × String × List String × ℚ) : String :=
  let entity_info := "Entity: " ++ e.1 ++ " (Type: " ++ e.2.1 ++ ")"
  let chunk_contexts := (e.2.2.1.take 3).map (fun chunk =>
    ((g.getNode? chunk).bind (·.text)).getD "")
  let related_entities := (g.neighbors e.1).filter (fun n => nodeTypeOf g n = some "entity")
  let related_info := "Related Entities: " ++ String.intercalate ", " (related_entities.take 5)
  entity_info ++ "\n" ++ related_info ++ "\nRelevant Chunks:\n"
    ++ String.intercalate "\n" chunk_contexts

/-- search_utils.py lines 110-152 (`get_graph_context`): score every entity
node, keep those at or above the threshold, sort by score (stable,
descending), take top_k, and render each as a textual bundle. -/
def get_graph_context (st : Settings) (su : SearchUtils) (query : String) : List String :=
  if st.enable_graph_search = false || su.knowledge_graph.nodes.isEmpty then []
  else
    let scores := nodeScores st su.knowledge_graph query
    let top_entities :=
      (isort (fun a b => decide (b.2.2.2 ≤ a.2.2.2)) scores).take st.top_k
    top_entities.map (fun e => entityBundle su.knowledge_graph e)

/-- search_utils.py lines 154-170 (`text_search`): keep stripped content
strings containing at least one lowercased query term as a substring, rank
by the count of matching terms (stable, descending), take top_k. -/
def text_search (st : Settings) (su : SearchUtils) (query : String) : List String :=
  if st.enable_text_search = false then []
  else
    let query_terms := tokensBy (fun c => !c.isWhitespace) (lowerStr query)
    let results := (su.db_content.map (fun content => pyStrip content)).filter
      (fun content => query_terms.any (fun term => strContains (lowerStr content) term))
    let matchCount := fun (x : String) =>
      (query_terms.filter (fun term => strContains (lowerStr x) term)).length
    (isort (fun a b => decide (matchCount b ≤ matchCount a)) results).take st.top_k

/-- search_utils.py lines 188-208 (`get_relevant_context`): with empty
embeddings or content return four empty lists; otherwise run the four
strategies on the joined conversation-context-plus-input query. -/
def get_relevant_context (st : Settings) (su : SearchUtils)
    (user_input : String) (conversation_context : List String) :
    List String × List String × List String × List String :=
  if embSize su = 0 ∨ su.db_content = [] then ([], [], [], [])
  else
    let search_query := String.intercalate " " (conversation_context ++ [user_input])
    (lexical_search st su search_query, semantic_search st su search_query,
     get_graph_context st su search_query, text_search st su search_query)

/-! ## Lemmas about the family-relation pass -/

theorem mem_extract_family_relations {d : NlpDoc} {t : Triple} :
    t ∈ extract_family_relations d ↔
      ∃ s ∈ d.sents,
        ∃ p ∈ pairsOf ((s.ents.filter (fun e => e.label = "PERSON")).map (·.text)),
          ∃ rel ∈ FAMILY_RELATIONS,
            strContains (lowerStr s.text) rel = true ∧ t ∈ familyEmit p.1 p.2 rel := by
  simp only [extract_family_relations, List.mem_flatMap, List.mem_filter]
  constructor
  · rintro ⟨s, hs, p, hp, rel, ⟨hrel, hsub⟩, hin⟩
    exact ⟨s, hs, p, hp, rel, hrel, hsub, hin⟩
  · rintro ⟨s, hs, p, hp, rel, hrel, hsub, hin⟩
    exact ⟨s, hs, p, hp, rel, ⟨hrel, hsub⟩, hin⟩

theorem mem_familyEmit {e1 e2 rel : String} {t : Triple} :
    t ∈ familyEmit e1 e2 rel ↔ t = (e1, rel, e2) ∨ t ∈ familyRecip e1 e2 rel := by
  simp [familyEmit]

theorem mem_familyRecip {e1 e2 rel : String} {t : Triple} (h : t ∈ familyRecip e1 e2 rel) :
    ((rel = "sister" ∨ rel = "brother") ∧ t = (e2, rel, e1)) ∨
    (rel = "parent" ∧ t = (e2, "child", e1)) ∨
    (rel = "child" ∧ t = (e2, "parent", e1)) := by
  unfold familyRecip at h
  split_ifs at h with h1 h2 h3
  · simp only [List.mem_singleton] at h
    exact Or.inl ⟨h1, h⟩
  · simp only [List.mem_singleton] at h
    exact Or.inr (Or.inl ⟨h2, h⟩)
  · simp only [List.mem_singleton] at h
    exact Or.inr (Or.inr ⟨h3, h⟩)
  · simp at h

theorem familyRecip_sb {e1 e2 rel : String} (h : rel = "sister" ∨ rel = "brother") :
    (e2, rel, e1) ∈ familyRecip e1 e2 rel := by
  unfold familyRecip
  rw [if_pos h]
  simp

theorem familyRecip_parent (e1 e2 : String) :
    (e2, "child", e1) ∈ familyRecip e1 e2 "parent" := by
  simp [familyRecip]

theorem child_not_family : ("child" : String) ∉ FAMILY_RELATIONS := by decide



/-- C4: the family-relation pass emits reciprocal triples exactly per the
source's rules: sister/brother symmetric, parent ⇒ reverse child,
child ⇒ reverse parent, and for every other family keyword the per-pair
emission is the primary triple alone (no reciprocal). -/
theorem extract_family_relations_reciprocal (d : NlpDoc) :
    (∀ a b rel, (rel = "sister" ∨ rel = "brother") →
        (a, rel, b) ∈ extract_family_relations d →
        (b, rel, a) ∈ extract_family_relations d) ∧
    (∀ a b, (a, "parent", b) ∈ extract_family_relations d →
        (b, "child", a) ∈ extract_family_relations d) ∧
    (∀ a b, (a, "child", b) ∈ extract_family_relations d →
        (b, "parent", a) ∈ extract_family_relations d) ∧
    (∀ rel ∈ FAMILY_RELATIONS, rel ∉ (["sister", "brother", "parent"] : List String) →
        ∀ e1 e2, familyEmit e1 e2 rel = [(e1, rel, e2)]) := by
  refine ⟨?_, ?_, ?_, ?_⟩
  · intro a b rel hrel hmem
    rw [mem_extract_family_relations] at hmem ⊢
    obtain ⟨s, hs, p, hp, rel', hrel', hsub, hin⟩ := hmem
    refine ⟨s, hs, p, hp, rel', hrel', hsub, ?_⟩
    rw [mem_familyEmit] at hin ⊢
    rcases hin with heq | hrecip
    · simp only [Prod.mk.injEq] at heq
      obtain ⟨rfl, rfl, rfl⟩ := heq
      exact Or.inr (familyRecip_sb hrel)
    · rcases mem_familyRecip hrecip with ⟨hsb, heq⟩ | ⟨hpar, heq⟩ | ⟨hch, heq⟩
      · simp only [Prod.mk.injEq] at heq
        obtain ⟨rfl, rfl, rfl⟩ := heq
        exact Or.inl rfl
      · simp only [Prod.mk.injEq] at heq
        obtain ⟨rfl, rfl, rfl⟩ := heq
        rcases hrel with h | h <;> simp at h
      · simp only [Prod.mk.injEq] at heq
        obtain ⟨rfl, rfl, rfl⟩ := heq
        rcases hrel with h | h <;> simp at h
  · intro a b hmem
    rw [mem_extract_family_relations] at hmem ⊢
    obtain ⟨s, hs, p, hp, rel', hrel', hsub, hin⟩ := hmem
    refine ⟨s, hs, p, hp, rel', hrel', hsub, ?_⟩
    rw [mem_familyEmit] at hin ⊢
    rcases hin with heq | hrecip
    · simp only [Prod.mk.injEq] at heq
      obtain ⟨rfl, hrel2, rfl⟩ := heq
      subst hrel2
      exact Or.inr (familyRecip_parent p.1 p.2)
    · rcases mem_familyRecip hrecip with ⟨hsb, heq⟩ | ⟨hpar, heq⟩ | ⟨hch, heq⟩
      · simp only [Prod.mk.injEq] at heq
        obtain ⟨rfl, hrel2, rfl⟩ := heq
        subst hrel2
        rcases hsb with h | h <;> simp at h
      · simp only [Prod.mk.injEq] at heq
        simp at heq
      · exact absurd (hch ▸ hrel') child_not_family
  · intro a b hmem
    rw [mem_extract_family_relations] at hmem ⊢
    obtain ⟨s, hs, p, hp, rel', hrel', hsub, hin⟩ := hmem
    refine ⟨s, hs, p, hp, rel', hrel', hsub, ?_⟩
    rw [mem_familyEmit] at hin ⊢
    rcases hin with heq | hrecip
    · simp only [Prod.mk.injEq] at heq
      obtain ⟨rfl, hrel2, rfl⟩ := heq
      exact absurd (hrel2.symm ▸ hrel') child_not_family
    · rcases mem_familyRecip hrecip with ⟨hsb, heq⟩ | ⟨hpar, heq⟩ | ⟨hch, heq⟩
      · simp only [Prod.mk.injEq] at heq
        obtain ⟨rfl, hrel2, rfl⟩ := heq
        subst hrel2
        rcases hsb with h | h <;> simp at h
      · simp only [Prod.mk.injEq] at heq
        obtain ⟨rfl, hrel2, rfl⟩ := heq
        subst hpar
        exact Or.inl rfl
      · exact absurd (hch ▸ hrel') child_not_family
  · intro rel hmem hni e1 e2
    have h1 : rel ≠ "sister" := fun h => hni (by simp [h])
    have h2 : rel ≠ "brother" := fun h => hni (by simp [h])
    have h3 : rel ≠ "parent" := fun h => hni (by simp [h])
    have h4 : rel ≠ "child" := fun h => absurd (h ▸ hmem) child_not_family
    simp only [familyEmit, familyRecip,
      if_neg (by tauto : ¬(rel = "sister" ∨ rel = "brother")), if_neg h3, if_neg h4]

def famDoc : NlpDoc :=
  ⟨[⟨"mary is the sister and parent of john", [⟨"Mary", "PERSON"⟩, ⟨"John", "PERSON"⟩]⟩]⟩

theorem extract_family_relations_reciprocal_witness :
    ("John", "sister", "Mary") ∈ extract_family_relations famDoc ∧
    ("John", "child", "Mary") ∈ extract_family_relations famDoc ∧
    ("Mary", "parent", "John") ∈ extract_family_relations famDoc := by
  refine ⟨?_, ?_, ?_⟩
  · exact (extract_family_relations_reciprocal famDoc).1 "Mary" "John" "sister"
      (Or.inl rfl) (by decide)
  · exact (extract_family_relations_reciprocal famDoc).2.1 "Mary" "John" (by decide)
  · exact (extract_family_relations_reciprocal famDoc).2.2.1 "John" "Mary" (by decide)

/-- C5: after `prune_graph(G, t)` every remaining edge carrying an explicit
weight satisfies weight ≥ t, every weightless edge (contains / relation
edges) is kept unchanged, and pruning adds or modifies nothing. -/
theorem prune_graph_invariant (g : Graph) (t : ℚ) :
    (∀ e ∈ (prune_graph g t).edges, ∀ w, e.2.2.weight = some w → t ≤ w) ∧
    (∀ e ∈ g.edges, e.2.2.weight = none → e ∈ (prune_graph g t).edges) ∧
    (∀ e ∈ (prune_graph g t).edges, e ∈ g.edges) ∧
    (prune_graph g t).nodes = g.nodes := by
  refine ⟨?_, ?_, ?_, rfl⟩
  · intro e he w hw
    obtain ⟨_, hkeep⟩ := List.mem_filter.mp he
    rw [hw] at hkeep
    simp only [Bool.not_eq_true'] at hkeep
    simpa using hkeep
  · intro e he hw
    refine List.mem_filter.mpr ⟨he, ?_⟩
    rw [hw]
    simp
  · intro e he
    exact (List.mem_filter.mp he).1

def pruneDemo : Graph :=
  ⟨[("a", {}), ("b", {}), ("c", {}), ("d", {})],
   [("a", "b", ⟨"similar", some (9/10)⟩),
    ("c", "d", ⟨"contains", none⟩),
    ("a", "c", ⟨"similar", some (1/2)⟩)]⟩

theorem prune_graph_invariant_witness :
    ("c", "d", (⟨"contains", none⟩ : EdgeAttr)) ∈ (prune_graph pruneDemo (4/5)).edges ∧
    (4/5 : ℚ) ≤ 9/10 := by
  constructor
  · exact (prune_graph_invariant pruneDemo (4/5)).2.1 ("c", "d", ⟨"contains", none⟩)
      (by simp [pruneDemo]) rfl
  · exact (prune_graph_invariant pruneDemo (4/5)).1 ("a", "b", ⟨"similar", some (9/10)⟩)
      (by
        refine List.mem_filter.mpr ⟨by simp [pruneDemo], ?_⟩
        norm_num [pruneDemo])
      (9/10) rfl

/-- C7: `get_relevant_context` with empty stored embeddings or empty stored
content returns four empty lists immediately. -/
theorem get_relevant_context_empty (st : Settings) (su : SearchUtils)
    (user_input : String) (conversation_context : List String)
    (h : embSize su = 0 ∨ su.db_content = []) :
    get_relevant_context st su user_input conversation_context = ([], [], [], []) := by
  simp [get_relevant_context, h]

theorem get_relevant_context_empty_witness :
    get_relevant_context {} { db_content := ["x"] } "query" ["earlier turn"] =
      ([], [], [], []) := by
  exact get_relevant_context_empty {} { db_content := ["x"] } "query" ["earlier turn"]
    (Or.inl rfl)

/-! ## Lemmas about add_edge and triple application -/

theorem ensureNode_edges (g : Graph) (n : String) : (g.ensureNode n).edges = g.edges := by
  unfold Graph.ensureNode
  split <;> rfl

theorem edgeKeyMatch_symm (u v : String) :
    edgeKeyMatch v u = edgeKeyMatch u v := by
  funext e
  simp only [edgeKeyMatch]
  rw [Bool.or_comm]

theorem edgeAttr?_symm (g : Graph) (u v : String) : g.edgeAttr? v u = g.edgeAttr? u v := by
  unfold Graph.edgeAttr?
  rw [edgeKeyMatch_symm]

theorem edgeRel?_symm (g : Graph) (u v : String) : g.edgeRel? v u = g.edgeRel? u v := by
  unfold Graph.edgeRel?
  rw [edgeAttr?_symm]

theorem edgeAttr?_addEdge_self (g : Graph) (u v rel : String) (w : Option ℚ) :
    (g.addEdge u v rel w).edgeAttr? u v =
      some ⟨rel, match w with
                 | some x => some x
                 | none => (g.edgeAttr? u v).bind (·.weight)⟩ := by
  unfold Graph.addEdge Graph.edgeAttr?
  simp only [ensureNode_edges]
  by_cases hex : g.edges.any (edgeKeyMatch u v)
  · rw [if_pos hex]
    obtain ⟨e0, he0, hp0⟩ := List.any_eq_true.mp hex
    have hfind : (g.edges.find? (edgeKeyMatch u v)).isSome :=
      List.find?_isSome.mpr ⟨e0, he0, hp0⟩
    obtain ⟨e1, hfind1⟩ := Option.isSome_iff_exists.mp hfind
    have hp1 : edgeKeyMatch u v e1 = true := List.find?_some hfind1
    have hcomp : (fun e => edgeKeyMatch u v
        (if edgeKeyMatch u v e then
          (e.1, e.2.1, ({ relation := rel, weight := match w with
                                                     | some x => some x
                                                     | none => e.2.2.weight } : EdgeAttr))
         else e)) = edgeKeyMatch u v := by
      funext e
      by_cases he : edgeKeyMatch u v e = true
      · simp only [if_pos he]
        rfl
      · simp only [if_neg he]
    simp only [List.find?_map, Function.comp_def, hcomp, hfind1, Option.map_some]
    cases w <;> simp [hp1]
  · rw [if_neg hex]
    have hnone : g.edges.find? (edgeKeyMatch u v) = none := by
      rw [List.find?_eq_none]
      intro x hx
      intro hc
      exact hex (List.any_eq_true.mpr ⟨x, hx, hc⟩)
    rw [List.find?_append, hnone]
    have : edgeKeyMatch u v (u, v, ({ relation := rel, weight := w } : EdgeAttr)) = true := by
      simp [edgeKeyMatch]
    simp only [List.find?_cons, this, Option.none_or, Option.map_some, hnone, Option.none_bind]
    cases w <;> rfl

theorem edgeAttr?_addEdge_other (g : Graph) (u v a b rel : String) (w : Option ℚ)
    (h : ¬ ((a = u ∧ b = v) ∨ (a = v ∧ b = u))) :
    (g.addEdge a b rel w).edgeAttr? u v = g.edgeAttr? u v := by
  unfold Graph.addEdge Graph.edgeAttr?
  simp only [ensureNode_edges]
  by_cases hex : g.edges.any (edgeKeyMatch a b)
  · rw [if_pos hex]
    have hcomp : (fun e => edgeKeyMatch u v
        (if edgeKeyMatch a b e then
          (e.1, e.2.1, ({ relation := rel, weight := match w with
                                                     | some x => some x
                                                     | none => e.2.2.weight } : EdgeAttr))
         else e)) = edgeKeyMatch u v := by
      funext e
      by_cases he : edgeKeyMatch a b e = true
      · simp only [if_pos he]
        rfl
      · simp only [if_neg he]
    simp only [List.find?_map, Function.comp_def, hcomp]
    cases hfind : g.edges.find? (edgeKeyMatch u v) with
    | none => rfl
    | some e1 =>
      have hp1 : edgeKeyMatch u v e1 = true := List.find?_some hfind
      have hne : edgeKeyMatch a b e1 = false := by
        by_contra hc
        simp only [Bool.not_eq_false] at hc
        simp only [edgeKeyMatch, Bool.or_eq_true, Bool.and_eq_true, decide_eq_true_eq] at hp1 hc
        rcases hp1 with ⟨h1, h2⟩ | ⟨h1, h2⟩ <;> rcases hc with ⟨h3, h4⟩ | ⟨h3, h4⟩ <;>
          exact h (by subst h1; subst h2; tauto)
      simp [hne]
  · rw [if_neg hex]
    rw [List.find?_append]
    have : edgeKeyMatch u v (a, b, ({ relation := rel, weight := w } : EdgeAttr)) = false := by
      simp only [edgeKeyMatch, Bool.or_eq_false_iff, Bool.and_eq_false_iff]
      constructor
      · by_cases h1 : a = u
        · right
          simp only [decide_eq_false_iff_not]
          intro h2
          exact h ( Or.inl ⟨h1, h2⟩)
        · left
          simp [h1]
      · by_cases h1 : a = v
        · right
          simp only [decide_eq_false_iff_not]
          intro h2
          exact h (Or.inr ⟨h1, h2⟩)
        · left
          simp [h1]
    simp only [List.find?_cons, this]
    cases g.edges.find? (edgeKeyMatch u v) <;> rfl

theorem edgeRel?_addEdge_self (g : Graph) (u v rel : String) (w : Option ℚ) :
    (g.addEdge u v rel w).edgeRel? u v = some rel := by
  unfold Graph.edgeRel?
  rw [edgeAttr?_addEdge_self]
  rfl

/-- Does triple `t` connect the unordered node pair `{u, v}`? -/
def tripleMatches (u v : String) (t : Triple) : Bool :=
  (t.1 = u && t.2.2 = v) || (t.1 = v && t.2.2 = u)

/-- The relation label of the last triple in the list touching the pair
`{u, v}`, if any. -/
def lastMatchRel (u v : String) : List Triple → Option String
  | [] => none
  | t :: ts =>
    match lastMatchRel u v ts with
    | some r => some r
    | none => if tripleMatches u v t then some t.2.1 else none

theorem applyTriples_edgeRel (u v : String) :
    ∀ (ts : List Triple) (g : Graph),
      (applyTriples g ts).edgeRel? u v =
        match lastMatchRel u v ts with
        | some r => some r
        | none => g.edgeRel? u v := by
  intro ts
  induction ts with
  | nil => intro g; rfl
  | cons t ts ih =>
    intro g
    have hstep : applyTriples g (t :: ts) =
        applyTriples (g.addEdge t.1 t.2.2 t.2.1 none) ts := rfl
    rw [hstep, ih]
    by_cases hm : tripleMatches u v t = true
    · have hg' : (g.addEdge t.1 t.2.2 t.2.1 none).edgeRel? u v = some t.2.1 := by
        simp only [tripleMatches, Bool.or_eq_true, Bool.and_eq_true, decide_eq_true_eq] at hm
        rcases hm with ⟨h1, h2⟩ | ⟨h1, h2⟩
        · rw [← h1, ← h2]
          exact edgeRel?_addEdge_self g t.1 t.2.2 t.2.1 none
        · rw [← h1, ← h2, edgeRel?_symm]
          exact edgeRel?_addEdge_self g t.1 t.2.2 t.2.1 none
      simp only [lastMatchRel, hm, if_true]
      cases lastMatchRel u v ts with
      | some r => rfl
      | none => simpa using hg'
    · have hg' : (g.addEdge t.1 t.2.2 t.2.1 none).edgeRel? u v = g.edgeRel? u v := by
        unfold Graph.edgeRel?
        rw [edgeAttr?_addEdge_other]
        simp only [tripleMatches, Bool.or_eq_true, Bool.and_eq_true, decide_eq_true_eq] at hm
        tauto
      simp only [lastMatchRel, hm, if_false]
      cases lastMatchRel u v ts with
      | some r => rfl
      | none => simpa using hg'

theorem lastMatchRel_append (u v : String) (ts fs : List Triple) :
    lastMatchRel u v (ts ++ fs) =
      match lastMatchRel u v fs with
      | some r => some r
      | none => lastMatchRel u v ts := by
  induction ts with
  | nil =>
    simp only [List.nil_append]
    cases lastMatchRel u v fs <;> rfl
  | cons t ts ih =>
    simp only [List.cons_append, lastMatchRel, List.append_eq, ih]
    cases lastMatchRel u v fs <;> cases lastMatchRel u v ts <;> rfl

/-- C6: the graph stores one edge per endpoint pair. `add_edge` on an
existing pair overwrites the stored relation (keeping an unsupplied
weight, per networkx's dict-update semantics), applying a triple list
leaves the relation label of the last matching triple, and in particular
if the family pass has a triple on a pair, the edge after applying
`triples + family_triples` carries the last family-pass label for that
pair, overwriting any syntactic-pass label. -/
theorem edge_overwrite_last_wins (g : Graph) (ts fs : List Triple) (u v : String) :
    (∀ a, g.edgeAttr? u v = some a → ∀ rel,
        (g.addEdge u v rel none).edgeAttr? u v = some ⟨rel, a.weight⟩) ∧
    ((applyTriples g (ts ++ fs)).edgeRel? u v =
      match lastMatchRel u v fs with
      | some r => some r
      | none =>
        match lastMatchRel u v ts with
        | some r => some r
        | none => g.edgeRel? u v) ∧
    (∀ r, lastMatchRel u v fs = some r →
        (applyTriples g (ts ++ fs)).edgeRel? u v = some r) := by
  have h2 : (applyTriples g (ts ++ fs)).edgeRel? u v =
      match lastMatchRel u v fs with
      | some r => some r
      | none =>
        match lastMatchRel u v ts with
        | some r => some r
        | none => g.edgeRel? u v := by
    rw [applyTriples_edgeRel, lastMatchRel_append]
    cases lastMatchRel u v fs <;> cases lastMatchRel u v ts <;> rfl
  refine ⟨?_, h2, ?_⟩
  · intro a ha rel
    rw [edgeAttr?_addEdge_self, ha]
    rfl
  · intro r hr
    rw [h2, hr]

theorem edge_overwrite_last_wins_witness :
    (applyTriples nxEmpty
        ([("A", "works with", "B")] ++ [("A", "sister", "B"), ("B", "sister", "A")])).edgeRel?
      "A" "B" = some "sister" := by
  exact (edge_overwrite_last_wins nxEmpty [("A", "works with", "B")]
    [("A", "sister", "B"), ("B", "sister", "A")] "A" "B").2.2 "sister" (by decide)

theorem getD_map_lt {α β : Type} {f : α → β} {l : List α} {i : Nat} (h : i < l.length)
    (d : α) (d' : β) : (l.map f).getD i d' = f (l.getD i d) := by
  rw [List.getD_eq_getElem?_getD, List.getD_eq_getElem?_getD, List.getElem?_map,
    List.getElem?_eq_getElem h]
  simp

/-- The claim's description of `lexical_search`, taken from the
specification's words: tokenize query and content into word sets, rank the
content indices by set-intersection size descending with ties broken by
original index order (a total order, not a stable sort), and return the
top_k content strings stripped. -/
def lexical_search_spec (st : Settings) (su : SearchUtils) (query : String) : List String :=
  let score := fun i => overlapCount (wordSet query) (su.db_content.getD i "")
  let ranked := isort
    (fun i j => decide (score j < score i) || (decide (score i = score j) && decide (i ≤ j)))
    (List.range su.db_content.length)
  (ranked.take st.top_k).map (fun i => pyStrip (su.db_content.getD i ""))

/-- C9: the source's `lexical_search` (word-set overlap scores, Python's
stable `sorted(..., reverse=True)`, top_k, strip) computes exactly the
specified ranking: descending overlap with ties in original index order. -/
theorem lexical_search_refines_spec (st : Settings) (su : SearchUtils) (query : String)
    (h : st.enable_lexical_search = true) :
    lexical_search st su query = lexical_search_spec st su query := by
  simp only [lexical_search, lexical_search_spec, h, Bool.true_eq_false, if_false]
  have hr : List.range (su.db_content.map (fun c => overlapCount (wordSet query) c)).length
      = List.range su.db_content.length := by simp
  rw [hr]
  have key : isort (fun i j =>
        decide ((su.db_content.map (fun c => overlapCount (wordSet query) c)).getD j 0 ≤
          (su.db_content.map (fun c => overlapCount (wordSet query) c)).getD i 0))
      (List.range su.db_content.length) =
      isort (fun i j =>
        decide (overlapCount (wordSet query) (su.db_content.getD j "") <
          overlapCount (wordSet query) (su.db_content.getD i "")) ||
        (decide (overlapCount (wordSet query) (su.db_content.getD i "") =
          overlapCount (wordSet query) (su.db_content.getD j "")) && decide (i ≤ j)))
      (List.range su.db_content.length) := by
    rw [isort_stable_eq_lex (fun i =>
      (su.db_content.map (fun c => overlapCount (wordSet query) c)).getD i 0)
      (List.range su.db_content.length) (List.pairwise_lt_range _)]
    apply isort_congr
    intro x hx y hy
    have hx' : x < su.db_content.length := List.mem_range.mp hx
    have hy' : y < su.db_content.length := List.mem_range.mp hy
    rw [getD_map_lt hx' "" 0, getD_map_lt hy' "" 0]
  rw [key]

theorem lexical_search_refines_spec_witness :
    lexical_search { top_k := 2 } { db_content := [" cats sleep ", "dogs bark", "cats and dogs "] }
        "cats dogs" =
      lexical_search_spec { top_k := 2 }
        { db_content := [" cats sleep ", "dogs bark", "cats and dogs "] } "cats dogs" := by
  exact lexical_search_refines_spec { top_k := 2 }
    { db_content := [" cats sleep ", "dogs bark", "cats and dogs "] } "cats dogs" rfl

theorem length_takeLastPy_le {α : Type} (k : Nat) (l : List α) (hk : 1 ≤ k) :
    (takeLastPy k l).length ≤ k := by
  unfold takeLastPy
  rw [if_neg (by omega)]
  rw [List.length_drop]
  omega

/-- C8 counterexample: with `top_k = 0` and a nonempty corpus,
`semantic_search` (encode branch) returns every stored string, because
Python's `arr[-0:]` is the whole array; its result length exceeds top_k. -/
theorem top_k_bound_counterexample :
    ¬ ((semantic_search { top_k := 0 }
        { encode := some (fun _ => [1]), db_embeddings := [[1]], db_content := ["a"] }
        "a").length ≤ ({ top_k := 0 } : Settings).top_k) := by
  simp [semantic_search, isort, insertS, takeLastPy, pyStrip, List.range_succ]

/-- C8 amended: provided top_k ≥ 1 (Python's `[-top_k:]` slice in
`semantic_search` returns everything at top_k = 0), the stored embeddings
and content are index-aligned, and every graph node carries a `type`
attribute (otherwise the source raises rather than returning), each of the
four strategies returns at most top_k results. -/
theorem top_k_bound (st : Settings) (su : SearchUtils) (query : String)
    (hk : 1 ≤ st.top_k)
    (ha : su.db_embeddings.length = su.db_content.length)
    (ht : ∀ p ∈ su.knowledge_graph.nodes, p.2.type ≠ none) :
    (lexical_search st su query).length ≤ st.top_k ∧
    (semantic_search st su query).length ≤ st.top_k ∧
    (get_graph_context st su query).length ≤ st.top_k ∧
    (text_search st su query).length ≤ st.top_k := by
  refine ⟨?_, ?_, ?_, ?_⟩
  · unfold lexical_search
    split
    · simp
    · rw [List.length_map, List.length_take]
      omega
  · unfold semantic_search
    split
    · simp
    · cases su.encode with
      | some enc =>
        simp only []
        rw [List.length_map, List.length_reverse]
        exact length_takeLastPy_le st.top_k _ hk
      | none =>
        simp only []
        rw [List.length_map]
        rw [List.length_take]
        omega
  · unfold get_graph_context
    split
    · simp
    · rw [List.length_map, List.length_take]
      omega
  · unfold text_search
    split
    · simp
    · rw [List.length_take]
      omega

theorem top_k_bound_witness :
    (lexical_search { top_k := 1 } { db_embeddings := [[1]], db_content := ["a"] } "a").length
        ≤ 1 ∧
    (semantic_search { top_k := 1 } { db_embeddings := [[1]], db_content := ["a"] } "a").length
        ≤ 1 ∧
    (get_graph_context { top_k := 1 } { db_embeddings := [[1]], db_content := ["a"] } "a").length
        ≤ 1 ∧
    (text_search { top_k := 1 } { db_embeddings := [[1]], db_content := ["a"] } "a").length
        ≤ 1 := by
  exact top_k_bound { top_k := 1 } { db_embeddings := [[1]], db_content := ["a"] } "a"
    (by norm_num) rfl (by simp [nxEmpty])

/-! ## Lemmas for the graph-context scenario -/

theorem isPrefixChars_append_right : ∀ p r : List Char, isPrefixChars p (p ++ r) = true := by
  intro p
  induction p with
  | nil => intro r; rfl
  | cons a as ih =>
    intro r
    simp [isPrefixChars, ih]

theorem entityBundle_startsWith (g : Graph) (e : String × String × List String × ℚ) :
    strStartsWith (entityBundle g e) ("Entity: " ++ e.1) = true := by
  unfold entityBundle strStartsWith
  simp only [String.data_append, List.append_assoc]
  rw [← List.append_assoc]
  exact isPrefixChars_append_right _ _

theorem nodeScores_eq (st : Settings) (g : Graph) (q : String) :
    nodeScores st g q =
      (g.nodes.filter (fun p => decide (p.2.type = some "entity"))).filterMap
        (fun p =>
          if st.entity_relevance_threshold ≤ relevance_score g q p.1 p.2 then
            some (p.1, p.2.entity_type.getD "Unknown", connectedChunks g p.1,
              relevance_score g q p.1 p.2)
          else none) := by
  unfold nodeScores
  induction g.nodes with
  | nil => rfl
  | cons p ps ih =>
    by_cases h : p.2.type = some "entity"
    · simp [List.filterMap_cons, List.filter_cons, h, ih]
    · simp [List.filterMap_cons, List.filter_cons, h, ih]

theorem take_singleton_of_pos {α : Type} (x : α) (k : Nat) (h : 1 ≤ k) :
    List.take k [x] = [x] := by
  cases k with
  | zero => omega
  | succ n => simp

/-- C2 amended: in the Scenario C graph (a Person entity "Mary" with
confidence 0.5 — stored or defaulted — exactly 2 chunk-typed neighbors and
1 distinct reachable parent document, "Mary" being the only entity node),
the query "Mary" gives Mary the relevance score
(1 + 2×0.1 + 1×0.2) × 0.5 = 0.7 (the 0.65 in the specification is an
arithmetic slip), and with entity_relevance_threshold = 0.6 and top_k ≥ 1
the entity "Mary" is included in the graph-context results. -/
theorem scenario_c_relevance (st : Settings) (su : SearchUtils) (dM : NodeAttr)
    (hent : su.knowledge_graph.nodes.filter (fun p => decide (p.2.type = some "entity"))
      = [("Mary", dM)])
    (hconf : dM.confidence.getD (1/2) = 1/2)
    (hchunks : (connectedChunks su.knowledge_graph "Mary").length = 2)
    (hdocs : (connectedDocs su.knowledge_graph "Mary").length = 1)
    (henable : st.enable_graph_search = true)
    (hthr : st.entity_relevance_threshold = 3/5)
    (htop : 1 ≤ st.top_k) :
    relevance_score su.knowledge_graph "Mary" "Mary" dM = 7/10 ∧
    ∃ s ∈ get_graph_context st su "Mary", strStartsWith s "Entity: Mary" = true := by
  have hrel : relevance_score su.knowledge_graph "Mary" "Mary" dM = 7/10 := by
    unfold relevance_score
    rw [hchunks, hdocs, hconf,
      if_pos (show strContains (lowerStr "Mary") (lowerStr "Mary") = true by decide)]
    push_cast
    norm_num
  refine ⟨hrel, ?_⟩
  have hscores : nodeScores st su.knowledge_graph "Mary" =
      [("Mary", dM.entity_type.getD "Unknown", connectedChunks su.knowledge_graph "Mary",
        7/10)] := by
    rw [nodeScores_eq, hent]
    simp only [List.filterMap_cons, List.filterMap_nil, hrel, hthr]
    rw [if_pos (by norm_num : (3/5 : ℚ) ≤ 7/10)]
  have hmary : ("Mary", dM) ∈ su.knowledge_graph.nodes :=
    (List.mem_filter.mp (hent ▸ List.mem_singleton_self ("Mary", dM))).1
  have hne : su.knowledge_graph.nodes.isEmpty = false := by
    cases h : su.knowledge_graph.nodes with
    | nil => rw [h] at hmary; simp at hmary
    | cons a l => simp
  unfold get_graph_context
  rw [henable, hne]
  simp only [Bool.or_false, decide_eq_true_eq, if_neg (by simp : ¬ (true = false))]
  rw [hscores]
  simp only [isort, insertS, take_singleton_of_pos _ st.top_k htop, List.map_cons,
    List.map_nil]
  refine ⟨entityBundle su.knowledge_graph
    ("Mary", dM.entity_type.getD "Unknown", connectedChunks su.knowledge_graph "Mary", 7/10),
    List.mem_singleton_self _, ?_⟩
  exact entityBundle_startsWith su.knowledge_graph _

def maryGraph : Graph :=
  ⟨[("Mary", { type := some "entity", entity_type := some "Person" }),
    ("c1", { type := some "chunk", text := some "chunk one" }),
    ("c2", { type := some "chunk", text := some "chunk two" }),
    ("d1", { type := some "document" })],
   [("Mary", "c1", ⟨"mentions", none⟩), ("Mary", "c2", ⟨"mentions", none⟩),
    ("c1", "d1", ⟨"contains", none⟩), ("c2", "d1", ⟨"contains", none⟩)]⟩

/-- C2 counterexample: on the Scenario C graph the source computes Mary's
relevance as (1 + 2×0.1 + 1×0.2) × 0.5 = 0.7, not the 0.65 stated by the
claim. -/
theorem scenario_c_counterexample :
    relevance_score maryGraph "Mary" "Mary"
        { type := some "entity", entity_type := some "Person" } = 7/10 ∧
    (7/10 : ℚ) ≠ 13/20 := by
  constructor
  · have h1 : (connectedChunks maryGraph "Mary").length = 2 := by decide
    have h2 : (connectedDocs maryGraph "Mary").length = 1 := by decide
    unfold relevance_score
    rw [h1, h2,
      if_pos (show strContains (lowerStr "Mary") (lowerStr "Mary") = true by decide)]
    push_cast
    norm_num
  · norm_num

theorem scenario_c_relevance_witness :
    relevance_score maryGraph "Mary" "Mary"
        { type := some "entity", entity_type := some "Person" } = 7/10 ∧
    ∃ s ∈ get_graph_context
        { entity_relevance_threshold := 3/5, top_k := 1 }
        { knowledge_graph := maryGraph } "Mary",
      strStartsWith s "Entity: Mary" = true := by
  exact scenario_c_relevance { entity_relevance_threshold := 3/5, top_k := 1 }
    { knowledge_graph := maryGraph }
    { type := some "entity", entity_type := some "Person" }
    (by decide) rfl (by decide) (by decide) rfl rfl (by norm_num)

/-! ## Node-level effect lemmas for the graph operations -/

theorem addNodeWith_edges (g : Graph) (n : String) (f : NodeAttr → NodeAttr) :
    (g.addNodeWith n f).edges = g.edges := by
  unfold Graph.addNodeWith
  split <;> rfl

theorem addEntityNode_edges (g : Graph) (n etype : String) :
    (g.addEntityNode n etype).edges = g.edges := by
  unfold Graph.addEntityNode
  split
  · rfl
  · exact addNodeWith_edges g n _

theorem addDocNode_edges (g : Graph) (n text : String) :
    (g.addDocNode n text).edges = g.edges := addNodeWith_edges g n _

theorem addEdge_nodes (g : Graph) (u v rel : String) (w : Option ℚ) :
    (g.addEdge u v rel w).nodes = ((g.ensureNode u).ensureNode v).nodes := by
  simp only [Graph.addEdge]
  split <;> rfl

theorem ensureNode_of_hasNode {g : Graph} {n : String} (h : g.hasNode n = true) :
    g.ensureNode n = g := by
  unfold Graph.ensureNode
  rw [if_pos h]

theorem hasNode_iff_mem (g : Graph) (n : String) :
    g.hasNode n = true ↔ ∃ a, (n, a) ∈ g.nodes := by
  unfold Graph.hasNode
  rw [List.any_eq_true]
  constructor
  · rintro ⟨p, hp, he⟩
    exact ⟨p.2, by simpa using (show p.1 = n from by simpa using he) ▸ hp⟩
  · rintro ⟨a, ha⟩
    exact ⟨(n, a), ha, by simp⟩

theorem hasNode_addNodeWith_self (g : Graph) (n : String) (f : NodeAttr → NodeAttr) :
    (g.addNodeWith n f).hasNode n = true := by
  unfold Graph.addNodeWith
  by_cases h : g.hasNode n = true
  · rw [if_pos h]
    obtain ⟨a, ha⟩ := (hasNode_iff_mem g n).mp h
    unfold Graph.hasNode
    rw [List.any_eq_true]
    exact ⟨(n, f a), List.mem_map.mpr ⟨(n, a), ha, by simp⟩, by simp⟩
  · rw [if_neg h]
    unfold Graph.hasNode
    rw [List.any_eq_true]
    exact ⟨(n, f {}), by simp, by simp⟩

theorem hasNode_mono_addNodeWith {g : Graph} {x : String} (n : String) (f : NodeAttr → NodeAttr)
    (h : g.hasNode x = true) : (g.addNodeWith n f).hasNode x = true := by
  obtain ⟨a, ha⟩ := (hasNode_iff_mem g x).mp h
  unfold Graph.addNodeWith
  split
  · unfold Graph.hasNode
    rw [List.any_eq_true]
    by_cases hx : x = n
    · exact ⟨(x, f a), List.mem_map.mpr ⟨(x, a), ha, by simp [hx]⟩, by simp⟩
    · exact ⟨(x, a), List.mem_map.mpr ⟨(x, a), ha, by simp [hx]⟩, by simp⟩
  · unfold Graph.hasNode
    rw [List.any_eq_true]
    exact ⟨(x, a), by simp [ha], by simp⟩

theorem hasNode_mono_ensureNode {g : Graph} {x : String} (n : String)
    (h : g.hasNode x = true) : (g.ensureNode n).hasNode x = true := by
  unfold Graph.ensureNode
  split
  · exact h
  · obtain ⟨a, ha⟩ := (hasNode_iff_mem g x).mp h
    unfold Graph.hasNode
    rw [List.any_eq_true]
    exact ⟨(x, a), by simp [ha], by simp⟩

theorem hasNode_ensureNode_self (g : Graph) (n : String) :
    (g.ensureNode n).hasNode n = true := by
  unfold Graph.ensureNode
  split
  · assumption
  · unfold Graph.hasNode
    rw [List.any_eq_true]
    exact ⟨(n, {}), by simp, by simp⟩

theorem hasNode_mono_addEdge {g : Graph} {x : String} (u v rel : String) (w : Option ℚ)
    (h : g.hasNode x = true) : (g.addEdge u v rel w).hasNode x = true := by
  have h1 : ((g.ensureNode u).ensureNode v).hasNode x = true :=
    hasNode_mono_ensureNode v (hasNode_mono_ensureNode u h)
  unfold Graph.hasNode at h1 ⊢
  rw [addEdge_nodes]
  exact h1

theorem hasNode_mono_addEntityNode {g : Graph} {x : String} (n etype : String)
    (h : g.hasNode x = true) : (g.addEntityNode n etype).hasNode x = true := by
  unfold Graph.addEntityNode
  split
  · exact h
  · exact hasNode_mono_addNodeWith n _ h

theorem hasNode_addEntityNode_self (g : Graph) (n etype : String) :
    (g.addEntityNode n etype).hasNode n = true := by
  unfold Graph.addEntityNode
  split
  · assumption
  · exact hasNode_addNodeWith_self g n _

theorem addEdge_nodes_of_present {g : Graph} {u v : String} (rel : String) (w : Option ℚ)
    (hu : g.hasNode u = true) (hv : g.hasNode v = true) :
    (g.addEdge u v rel w).nodes = g.nodes := by
  rw [addEdge_nodes, ensureNode_of_hasNode hu, ensureNode_of_hasNode hv]

/-! ## Endpoints of extracted triples -/

theorem pairsOf_mem {α : Type} {p : α × α} :
    ∀ {l : List α}, p ∈ pairsOf l → p.1 ∈ l ∧ p.2 ∈ l := by
  intro l
  induction l with
  | nil => simp [pairsOf]
  | cons x xs ih =>
    intro h
    simp only [pairsOf, List.mem_append, List.mem_map] at h
    rcases h with ⟨y, hy, he⟩ | h
    · rw [← he]
      exact ⟨by simp, by simp [hy]⟩
    · have := ih h
      exact ⟨by simp [this.1], by simp [this.2]⟩

theorem person_text_in_key_entities {d : NlpDoc} {s : PSent} (hs : s ∈ d.sents) {e : PEnt}
    (he : e ∈ s.ents) (hl : e.label = "PERSON") :
    e.text ∈ (extract_key_entities d).map Prod.fst := by
  unfold extract_key_entities
  rw [List.map_map]
  refine List.mem_map.mpr ⟨e, ?_, rfl⟩
  refine List.mem_filter.mpr ⟨?_, by simp [hl]⟩
  unfold NlpDoc.ents
  exact List.mem_flatMap.mpr ⟨s, hs, he⟩

theorem family_endpoints {d : NlpDoc} {t : Triple} (h : t ∈ extract_family_relations d) :
    t.1 ∈ (extract_key_entities d).map Prod.fst ∧
    t.2.2 ∈ (extract_key_entities d).map Prod.fst := by
  rw [mem_extract_family_relations] at h
  obtain ⟨s, hs, p, hp, rel, _, _, hin⟩ := h
  have hpersons : ∀ x ∈ (s.ents.filter (fun e => e.label = "PERSON")).map PEnt.text,
      x ∈ (extract_key_entities d).map Prod.fst := by
    intro x hx
    obtain ⟨e, he, rfl⟩ := List.mem_map.mp hx
    obtain ⟨he1, he2⟩ := List.mem_filter.mp he
    exact person_text_in_key_entities hs he1 (by simpa using he2)
  obtain ⟨hp1, hp2⟩ := pairsOf_mem hp
  have h1 := hpersons p.1 hp1
  have h2 := hpersons p.2 hp2
  have hends : (t.1 = p.1 ∨ t.1 = p.2) ∧ (t.2.2 = p.1 ∨ t.2.2 = p.2) := by
    rw [mem_familyEmit] at hin
    rcases hin with heq | hrecip
    · rw [heq]
      exact ⟨Or.inl rfl, Or.inr rfl⟩
    · rcases mem_familyRecip hrecip with ⟨_, heq⟩ | ⟨_, heq⟩ | ⟨_, heq⟩ <;>
        rw [heq] <;> exact ⟨Or.inr rfl, Or.inl rfl⟩
  constructor
  · rcases hends.1 with h | h <;> rw [h] <;> assumption
  · rcases hends.2 with h | h <;> rw [h] <;> assumption

/-! ## The entity-and-triple folds preserve node membership and presence -/

theorem hasNode_congr {g g' : Graph} (h : g.nodes = g'.nodes) (x : String) :
    g.hasNode x = g'.hasNode x := by
  unfold Graph.hasNode
  rw [h]

theorem entityFold_hasNode_mono (i : Nat) :
    ∀ (ke : List (String × String)) (g : Graph) (x : String), g.hasNode x = true →
      (ke.foldl (fun g p =>
        (g.addEntityNode p.1 p.2).addEdge (docName i) p.1 "contains" none) g).hasNode x
        = true := by
  intro ke
  induction ke with
  | nil => intro g x h; exact h
  | cons q ke ih =>
    intro g x h
    exact ih _ x (hasNode_mono_addEdge _ _ _ _ (hasNode_mono_addEntityNode _ _ h))

theorem entityFold_hasNode_all (i : Nat) :
    ∀ (ke : List (String × String)) (g : Graph), ∀ p ∈ ke,
      (ke.foldl (fun g p =>
        (g.addEntityNode p.1 p.2).addEdge (docName i) p.1 "contains" none) g).hasNode p.1
        = true := by
  intro ke
  induction ke with
  | nil => simp
  | cons q ke ih =>
    intro g p hp
    rcases List.mem_cons.mp hp with rfl | hp
    · exact entityFold_hasNode_mono i ke _ p.1
        (hasNode_mono_addEdge _ _ _ _ (hasNode_addEntityNode_self g p.1 p.2))
    · exact ih _ p hp

theorem applyTriples_nodes_of_present :
    ∀ (ts : List Triple) (g : Graph),
      (∀ t ∈ ts, g.hasNode t.1 = true ∧ g.hasNode t.2.2 = true) →
      (applyTriples g ts).nodes = g.nodes := by
  intro ts
  induction ts with
  | nil => intro g _; rfl
  | cons t ts ih =>
    intro g h
    have ht := h t (by simp)
    have hstep : (g.addEdge t.1 t.2.2 t.2.1 none).nodes = g.nodes :=
      addEdge_nodes_of_present _ _ ht.1 ht.2
    have : applyTriples g (t :: ts) = applyTriples (g.addEdge t.1 t.2.2 t.2.1 none) ts := rfl
    rw [this, ih _ (fun t' ht' => by
      have h2 := h t' (by simp [ht'])
      rw [hasNode_congr hstep t'.1, hasNode_congr hstep t'.2.2]
      exact h2), hstep]

/-! ## Builder node invariants: types are document/entity (or still-unset for
endpoints created bare by add_edge), and confidence is never written -/

def BuilderNodeOk (p : String × NodeAttr) : Prop :=
  (p.2.type = none ∨ p.2.type = some "document" ∨ p.2.type = some "entity") ∧
  p.2.confidence = none

theorem nodesOk_addNodeWith {g : Graph} (h : ∀ p ∈ g.nodes, BuilderNodeOk p)
    (n : String) (f : NodeAttr → NodeAttr)
    (hf : ∀ a, BuilderNodeOk (n, a) → BuilderNodeOk (n, f a))
    (hf0 : BuilderNodeOk (n, f {})) :
    ∀ p ∈ (g.addNodeWith n f).nodes, BuilderNodeOk p := by
  intro p hp
  unfold Graph.addNodeWith at hp
  split at hp
  · obtain ⟨q, hq, he⟩ := List.mem_map.mp hp
    by_cases hqn : q.1 = n
    · rw [if_pos hqn] at he
      rw [← he]
      have hok : BuilderNodeOk q := h q hq
      exact hf q.2 ⟨hok.1, hok.2⟩
    · rw [if_neg hqn] at he
      rw [← he]
      exact h q hq
  · rcases List.mem_append.mp hp with hp | hp
    · exact h p hp
    · rw [List.mem_singleton.mp hp]
      exact hf0

theorem nodesOk_addDocNode {g : Graph} (h : ∀ p ∈ g.nodes, BuilderNodeOk p)
    (n text : String) : ∀ p ∈ (g.addDocNode n text).nodes, BuilderNodeOk p := by
  refine nodesOk_addNodeWith h n _ ?_ ?_
  · intro a ha
    exact ⟨Or.inr (Or.inl rfl), ha.2⟩
  · exact ⟨Or.inr (Or.inl rfl), rfl⟩

theorem nodesOk_addEntityNode {g : Graph} (h : ∀ p ∈ g.nodes, BuilderNodeOk p)
    (n etype : String) : ∀ p ∈ (g.addEntityNode n etype).nodes, BuilderNodeOk p := by
  unfold Graph.addEntityNode
  split
  · exact h
  · refine nodesOk_addNodeWith h n _ ?_ ?_
    · intro a ha
      exact ⟨Or.inr (Or.inr rfl), ha.2⟩
    · exact ⟨Or.inr (Or.inr rfl), rfl⟩

theorem nodesOk_ensureNode {g : Graph} (h : ∀ p ∈ g.nodes, BuilderNodeOk p)
    (n : String) : ∀ p ∈ (g.ensureNode n).nodes, BuilderNodeOk p := by
  unfold Graph.ensureNode
  split
  · exact h
  · intro p hp
    rcases List.mem_append.mp hp with hp | hp
    · exact h p hp
    · rw [List.mem_singleton.mp hp]
      exact ⟨Or.inl rfl, rfl⟩

theorem nodesOk_addEdge {g : Graph} (h : ∀ p ∈ g.nodes, BuilderNodeOk p)
    (u v rel : String) (w : Option ℚ) :
    ∀ p ∈ (g.addEdge u v rel w).nodes, BuilderNodeOk p := by
  intro p hp
  rw [addEdge_nodes] at hp
  exact nodesOk_ensureNode (nodesOk_ensureNode h u) v p hp

theorem nodesOk_applyTriples :
    ∀ (ts : List Triple) (g : Graph), (∀ p ∈ g.nodes, BuilderNodeOk p) →
      ∀ p ∈ (applyTriples g ts).nodes, BuilderNodeOk p := by
  intro ts
  induction ts with
  | nil => intro g h; exact h
  | cons t ts ih =>
    intro g h
    exact ih _ (nodesOk_addEdge h t.1 t.2.2 t.2.1 none)

theorem nodesOk_entityFold (i : Nat) :
    ∀ (ke : List (String × String)) (g : Graph), (∀ p ∈ g.nodes, BuilderNodeOk p) →
      ∀ p ∈ (ke.foldl (fun g p =>
        (g.addEntityNode p.1 p.2).addEdge (docName i) p.1 "contains" none) g).nodes,
        BuilderNodeOk p := by
  intro ke
  induction ke with
  | nil => intro g h; exact h
  | cons q ke ih =>
    intro g h
    exact ih _ (nodesOk_addEdge (nodesOk_addEntityNode h q.1 q.2) (docName i) q.1
      "contains" none)

theorem nodesOk_processChunk (nlp : String → NlpDoc)
    (rels : String → List (String × String) → List Triple) (g : Graph) (i : Nat) (c : String)
    (h : ∀ p ∈ g.nodes, BuilderNodeOk p) :
    ∀ p ∈ (processChunk nlp rels g i c).nodes, BuilderNodeOk p := by
  unfold processChunk
  exact nodesOk_applyTriples _ _ (nodesOk_entityFold i _ _ (nodesOk_addDocNode h _ _))

theorem nodesOk_phase1Aux (nlp : String → NlpDoc)
    (rels : String → List (String × String) → List Triple) :
    ∀ (cs : List String) (g : Graph) (i : Nat), (∀ p ∈ g.nodes, BuilderNodeOk p) →
      ∀ p ∈ (phase1Aux nlp rels g i cs).nodes, BuilderNodeOk p := by
  intro cs
  induction cs with
  | nil => intro g i h; exact h
  | cons c cs ih =>
    intro g i h
    exact ih _ _ (nodesOk_processChunk nlp rels g i c h)

theorem addSimPairs_nodes {E : Type} (docs : List String) (emb : List E) (cos : E → E → ℚ) :
    ∀ (P : List (Nat × Nat)) (g g' : Graph),
      (∀ x ∈ docs, g.hasNode x = true) →
      (∀ q ∈ P, q.1 < docs.length ∧ q.2 < docs.length) →
      addSimPairs docs emb cos g P = .ok g' → g'.nodes = g.nodes := by
  intro P
  induction P with
  | nil =>
    intro g g' _ _ h
    rw [(Except.ok.inj h).symm]
  | cons q P ih =>
    intro g g' hdocs hbound h
    obtain ⟨i, j⟩ := q
    unfold addSimPairs at h
    cases hei : emb[i]? with
    | none => rw [hei] at h; cases emb[j]? <;> simp at h
    | some ei =>
      cases hej : emb[j]? with
      | none => rw [hei, hej] at h; simp at h
      | some ej =>
        rw [hei, hej] at h
        simp only [] at h
        have hbij := hbound (i, j) (by simp)
        have hmemi : docs.getD i "" ∈ docs := by
          rw [List.getD_eq_getElem?_getD, List.getElem?_eq_getElem hbij.1]
          simp only [Option.getD_some]
          exact List.getElem_mem hbij.1
        have hmemj : docs.getD j "" ∈ docs := by
          rw [List.getD_eq_getElem?_getD, List.getElem?_eq_getElem hbij.2]
          simp only [Option.getD_some]
          exact List.getElem_mem hbij.2
        set g1 := if 7/10 < cos ei ej then
            g.addEdge (docs.getD i "") (docs.getD j "") "similar" (some (cos ei ej))
          else g with hg1
        have hnodes : g1.nodes = g.nodes := by
          rw [hg1]
          split
          · exact addEdge_nodes_of_present _ _ (hdocs _ hmemi) (hdocs _ hmemj)
          · rfl
        have hres := ih g1 g' (fun x hx => by
            rw [hasNode_congr hnodes x]; exact hdocs x hx)
          (fun q hq => hbound q (by simp [hq])) h
        rw [hres, hnodes]

theorem docNodesOf_ok {g : Graph} {docs : List String} (h : docNodesOf g = .ok docs) :
    (∀ p ∈ g.nodes, p.2.type ≠ none) ∧
    docs = (g.nodes.filter (fun p => decide (p.2.type = some "document"))).map Prod.fst := by
  unfold docNodesOf at h
  split at h
  · simp at h
  · next hany =>
    refine ⟨?_, (Except.ok.inj h).symm⟩
    intro p hp hc
    exact hany (List.any_eq_true.mpr ⟨p, hp, by simp [hc]⟩)

theorem docs_hasNode {g : Graph} {docs : List String}
    (h : docs = (g.nodes.filter (fun p => decide (p.2.type = some "document"))).map Prod.fst) :
    ∀ x ∈ docs, g.hasNode x = true := by
  intro x hx
  rw [h] at hx
  obtain ⟨p, hp, rfl⟩ := List.mem_map.mp hx
  exact (hasNode_iff_mem g p.1).mpr ⟨p.2, (List.mem_filter.mp hp).1⟩

theorem mem_idxPairs {n : Nat} {q : Nat × Nat} :
    q ∈ idxPairs n ↔ q.1 < q.2 ∧ q.2 < n := by
  simp only [idxPairs, List.mem_flatMap, List.mem_map, List.mem_range, List.mem_range'_1]
  constructor
  · rintro ⟨i, hi, j, hj, rfl⟩
    simp only []
    omega
  · rintro ⟨h1, h2⟩
    exact ⟨q.1, by omega, q.2, ⟨by omega, by omega⟩, rfl⟩

/-- C10: a graph returned by `create_networkx_graph` has only `document` and
`entity` node types (never `chunk`), no node carries a `confidence`
attribute, and consequently `get_graph_context` over such a graph finds no
chunk-typed neighbors for any node, so every entity's relevance score is
0.5 when its surface name occurs case-insensitively in the query and 0
otherwise. -/
theorem built_graph_node_types {E : Type} (nlp : String → NlpDoc)
    (rels : String → List (String × String) → List Triple)
    (data : List String) (embeddings : List E) (cos : E → E → ℚ) (G : Graph)
    (hG : create_networkx_graph nlp rels data embeddings cos = .ok G) :
    (∀ p ∈ G.nodes, p.2.type = some "document" ∨ p.2.type = some "entity") ∧
    (∀ p ∈ G.nodes, p.2.confidence = none) ∧
    (∀ node : String, connectedChunks G node = []) ∧
    (∀ node dat, (node, dat) ∈ G.nodes → dat.type = some "entity" → ∀ q : String,
        relevance_score G q node dat =
          if strContains (lowerStr q) (lowerStr node) then 1/2 else 0) := by
  unfold create_networkx_graph at hG
  simp only [Bind.bind, Except.bind] at hG
  cases hdoc : docNodesOf (phase1 nlp rels data) with
  | error e => rw [hdoc] at hG; simp at hG
  | ok docs =>
    rw [hdoc] at hG
    simp only [] at hG
    obtain ⟨htyped, hdocs⟩ := docNodesOf_ok hdoc
    have hOk : ∀ p ∈ (phase1 nlp rels data).nodes, BuilderNodeOk p :=
      nodesOk_phase1Aux nlp rels data nxEmpty 0 (by simp [nxEmpty])
    have hnodes : G.nodes = (phase1 nlp rels data).nodes :=
      addSimPairs_nodes docs embeddings cos (idxPairs docs.length) _ G
        (docs_hasNode hdocs)
        (fun q hq => by
          obtain ⟨h1, h2⟩ := mem_idxPairs.mp hq
          exact ⟨by omega, h2⟩) hG
    have hc1 : ∀ p ∈ G.nodes, p.2.type = some "document" ∨ p.2.type = some "entity" := by
      intro p hp
      rw [hnodes] at hp
      rcases (hOk p hp).1 with h | h | h
      · exact absurd h (htyped p hp)
      · exact Or.inl h
      · exact Or.inr h
    have hc2 : ∀ p ∈ G.nodes, p.2.confidence = none := by
      intro p hp
      rw [hnodes] at hp
      exact (hOk p hp).2
    have hc3 : ∀ node : String, connectedChunks G node = [] := by
      intro node
      unfold connectedChunks
      rw [List.filter_eq_nil_iff]
      intro nb _
      unfold nodeTypeOf Graph.getNode?
      cases hfind : G.nodes.find? (fun p => p.1 = nb) with
      | none => simp
      | some p =>
        have hmem : p ∈ G.nodes := List.mem_of_find?_eq_some hfind
        rcases hc1 p hmem with h | h <;> simp [h]
    refine ⟨hc1, hc2, hc3, ?_⟩
    intro node dat hmem htype q
    unfold relevance_score
    have hdocs0 : connectedDocs G node = [] := by
      unfold connectedDocs
      rw [hc3 node]
      rfl
    rw [hc3 node, hdocs0, hc2 (node, dat) hmem]
    simp only [List.length_nil, Nat.cast_zero, zero_mul, add_zero, Option.getD_none]
    split_ifs <;> norm_num

instance : DecidableEq (Except BuildError Graph) := fun a b =>
  match a, b with
  | .ok x, .ok y =>
    if h : x = y then isTrue (by rw [h]) else isFalse (by simp [h])
  | .error x, .error y =>
    if h : x = y then isTrue (by rw [h]) else isFalse (by simp [h])
  | .ok _, .error _ => isFalse (by simp)
  | .error _, .ok _ => isFalse (by simp)

def nlpDemo : String → NlpDoc := fun _ => ⟨[⟨"mary wrote a book", [⟨"Mary", "PERSON"⟩]⟩]⟩

def relsDemo : String → List (String × String) → List Triple := fun _ _ => []

def builtDemo : Graph :=
  ⟨[("doc_0", { type := some "document", text := some "x" }),
    ("Mary", { type := some "entity", entity_type := some "PERSON" })],
   [("doc_0", "Mary", ⟨"contains", none⟩)]⟩

theorem built_graph_node_types_witness :
    create_networkx_graph nlpDemo relsDemo ["x"] ([] : List Unit) (fun _ _ => 0)
      = .ok builtDemo ∧
    relevance_score builtDemo "Mary" "Mary"
      { type := some "entity", entity_type := some "PERSON" } = 1/2 := by
  refine ⟨by decide, ?_⟩
  have h := (built_graph_node_types nlpDemo relsDemo ["x"] ([] : List Unit) (fun _ _ => 0)
    builtDemo (by decide)).2.2.2 "Mary"
    { type := some "entity", entity_type := some "PERSON" } (by decide) rfl "Mary"
  rw [h, if_pos (by decide)]

/-! ## All nodes typed after phase 1 (given triple endpoints are extracted
entities, as for the source's extract_relations) -/

theorem typed_addNodeWith {g : Graph} (h : ∀ p ∈ g.nodes, p.2.type ≠ none)
    (n : String) (f : NodeAttr → NodeAttr) (hf : ∀ a, (f a).type ≠ none) :
    ∀ p ∈ (g.addNodeWith n f).nodes, p.2.type ≠ none := by
  intro p hp
  unfold Graph.addNodeWith at hp
  split at hp
  · obtain ⟨q, hq, he⟩ := List.mem_map.mp hp
    by_cases hqn : q.1 = n
    · rw [if_pos hqn] at he
      rw [← he]
      exact hf q.2
    · rw [if_neg hqn] at he
      rw [← he]
      exact h q hq
  · rcases List.mem_append.mp hp with hp | hp
    · exact h p hp
    · rw [List.mem_singleton.mp hp]
      exact hf {}

theorem typed_addDocNode {g : Graph} (h : ∀ p ∈ g.nodes, p.2.type ≠ none) (n text : String) :
    ∀ p ∈ (g.addDocNode n text).nodes, p.2.type ≠ none :=
  typed_addNodeWith h n _ (fun a => by simp)

theorem typed_addEntityNode {g : Graph} (h : ∀ p ∈ g.nodes, p.2.type ≠ none)
    (n etype : String) : ∀ p ∈ (g.addEntityNode n etype).nodes, p.2.type ≠ none := by
  unfold Graph.addEntityNode
  split
  · exact h
  · exact typed_addNodeWith h n _ (fun a => by simp)

theorem typed_entityFold (i : Nat) :
    ∀ (ke : List (String × String)) (g : Graph), g.hasNode (docName i) = true →
      (∀ p ∈ g.nodes, p.2.type ≠ none) →
      ∀ p ∈ (ke.foldl (fun g p =>
        (g.addEntityNode p.1 p.2).addEdge (docName i) p.1 "contains" none) g).nodes,
        p.2.type ≠ none := by
  intro ke
  induction ke with
  | nil => intro g _ h; exact h
  | cons q ke ih =>
    intro g hdoc h
    have h1 : ∀ p ∈ (g.addEntityNode q.1 q.2).nodes, p.2.type ≠ none :=
      typed_addEntityNode h q.1 q.2
    have hnod : ((g.addEntityNode q.1 q.2).addEdge (docName i) q.1 "contains" none).nodes
        = (g.addEntityNode q.1 q.2).nodes :=
      addEdge_nodes_of_present _ _ (hasNode_mono_addEntityNode _ _ hdoc)
        (hasNode_addEntityNode_self g q.1 q.2)
    refine ih _ ?_ ?_
    · rw [hasNode_congr hnod]
      exact hasNode_mono_addEntityNode _ _ hdoc
    · intro p hp
      rw [hnod] at hp
      exact h1 p hp

theorem processChunk_alltyped (nlp : String → NlpDoc)
    (rels : String → List (String × String) → List Triple)
    (hR : ∀ c ents, ∀ t ∈ rels c ents,
        t.1 ∈ ents.map Prod.fst ∧ t.2.2 ∈ ents.map Prod.fst)
    (g : Graph) (i : Nat) (c : String) (h : ∀ p ∈ g.nodes, p.2.type ≠ none) :
    ∀ p ∈ (processChunk nlp rels g i c).nodes, p.2.type ≠ none := by
  unfold processChunk
  simp only []
  intro p hp
  have hdoc1 : (g.addDocNode (docName i) (preprocess_text c)).hasNode (docName i) = true :=
    hasNode_addNodeWith_self g (docName i) _
  set ke := extract_key_entities (nlp (preprocess_text c)) with hke
  set g2 := ke.foldl (fun g p =>
    (g.addEntityNode p.1 p.2).addEdge (docName i) p.1 "contains" none)
    (g.addDocNode (docName i) (preprocess_text c)) with hg2
  have hke_present : ∀ x ∈ ke.map Prod.fst, g2.hasNode x = true := by
    intro x hx
    obtain ⟨q, hq, rfl⟩ := List.mem_map.mp hx
    exact entityFold_hasNode_all i ke _ q hq
  have hends : ∀ t ∈ rels (preprocess_text c) ke ++
      extract_family_relations (nlp (preprocess_text c)),
      g2.hasNode t.1 = true ∧ g2.hasNode t.2.2 = true := by
    intro t ht
    rcases List.mem_append.mp ht with ht | ht
    · obtain ⟨h1, h2⟩ := hR (preprocess_text c) ke t ht
      exact ⟨hke_present _ h1, hke_present _ h2⟩
    · obtain ⟨h1, h2⟩ := family_endpoints ht
      exact ⟨hke_present _ (hke ▸ h1), hke_present _ (hke ▸ h2)⟩
  have hnodes : (applyTriples g2 (rels (preprocess_text c) ke ++
      extract_family_relations (nlp (preprocess_text c)))).nodes = g2.nodes :=
    applyTriples_nodes_of_present _ g2 hends
  rw [hnodes] at hp
  exact typed_entityFold i ke _ hdoc1 (typed_addDocNode h (docName i) _) p hp

theorem phase1Aux_alltyped (nlp : String → NlpDoc)
    (rels : String → List (String × String) → List Triple)
    (hR : ∀ c ents, ∀ t ∈ rels c ents,
        t.1 ∈ ents.map Prod.fst ∧ t.2.2 ∈ ents.map Prod.fst) :
    ∀ (cs : List String) (g : Graph) (i : Nat), (∀ p ∈ g.nodes, p.2.type ≠ none) →
      ∀ p ∈ (phase1Aux nlp rels g i cs).nodes, p.2.type ≠ none := by
  intro cs
  induction cs with
  | nil => intro g i h; exact h
  | cons c cs ih =>
    intro g i h
    exact ih _ _ (processChunk_alltyped nlp rels hR g i c h)

/-! ## Document-node bookkeeping under fresh entity names

When no extracted entity is literally named `doc_k`, the document-typed
nodes after phase 1 are exactly `doc_0 .. doc_{n-1}` in insertion order and
no edge joins two document nodes, so the similarity pass pairs
`embeddings[i]` with `doc_i`. -/

def docFilterNames (g : Graph) : List String :=
  (g.nodes.filter (fun p => decide (p.2.type = some "document"))).map Prod.fst

def DocTyped (g : Graph) : Prop :=
  ∀ p ∈ g.nodes, (∃ k, p.1 = docName k) → p.2.type = some "document"

def NoDocDocEdge (g : Graph) : Prop :=
  ∀ e ∈ g.edges, ¬((∃ k, e.1 = docName k) ∧ (∃ k, e.2.1 = docName k))

theorem fresh_doc_not_hasNode {g : Graph} {i : Nat}
    (h1 : docFilterNames g = (List.range i).map docName) (h2 : DocTyped g) :
    g.hasNode (docName i) = false := by
  by_contra hc
  simp only [Bool.not_eq_false] at hc
  obtain ⟨a, ha⟩ := (hasNode_iff_mem g (docName i)).mp hc
  have htype := h2 (docName i, a) ha ⟨i, rfl⟩
  have hmem : docName i ∈ docFilterNames g := by
    unfold docFilterNames
    exact List.mem_map.mpr ⟨(docName i, a),
      List.mem_filter.mpr ⟨ha, by simpa using htype⟩, rfl⟩
  rw [h1] at hmem
  obtain ⟨k, hk, he⟩ := List.mem_map.mp hmem
  have := docName_inj k i he
  rw [this] at hk
  exact absurd (List.mem_range.mp hk) (by omega)

theorem inv_addDocNode {g : Graph} {i : Nat} (text : String)
    (h1 : docFilterNames g = (List.range i).map docName) (h2 : DocTyped g) :
    docFilterNames (g.addDocNode (docName i) text) = (List.range (i + 1)).map docName ∧
    DocTyped (g.addDocNode (docName i) text) := by
  have hno := fresh_doc_not_hasNode h1 h2
  unfold Graph.addDocNode Graph.addNodeWith
  rw [if_neg (by rw [hno]; exact Bool.false_ne_true)]
  constructor
  · unfold docFilterNames at h1 ⊢
    simp only [List.filter_append, List.map_append, List.range_succ]
    rw [h1]
    rfl
  · intro p hp hdoc
    rcases List.mem_append.mp hp with hp | hp
    · exact h2 p hp hdoc
    · rw [List.mem_singleton.mp hp]
  
theorem inv_addEntityNode {g : Graph} {n : String} (etype : String)
    (hfresh : ∀ k, n ≠ docName k) (h2 : DocTyped g) :
    docFilterNames (g.addEntityNode n etype) = docFilterNames g ∧
    DocTyped (g.addEntityNode n etype) := by
  unfold Graph.addEntityNode
  split
  · exact ⟨rfl, h2⟩
  · unfold Graph.addNodeWith
    split
    · next h hh =>
      exact absurd hh h
    · constructor
      · unfold docFilterNames
        simp only [List.filter_append, List.map_append]
        have : (List.filter (fun p => decide (p.2.type = some "document"))
            [(n, ({ type := some "entity", entity_type := some etype } : NodeAttr))]) = [] := by
          simp
        rw [this]
        simp
      · intro p hp hdoc
        rcases List.mem_append.mp hp with hp | hp
        · exact h2 p hp hdoc
        · obtain ⟨k, hk⟩ := hdoc
          rw [List.mem_singleton.mp hp] at hk
          exact absurd hk (hfresh k)

theorem inv_ensureNode {g : Graph} {n : String}
    (hfresh : ∀ k, n ≠ docName k) (h2 : DocTyped g) :
    docFilterNames (g.ensureNode n) = docFilterNames g ∧ DocTyped (g.ensureNode n) := by
  unfold Graph.ensureNode
  split
  · exact ⟨rfl, h2⟩
  · constructor
    · unfold docFilterNames
      simp only [List.filter_append, List.map_append]
      have : (List.filter (fun p => decide (p.2.type = some "document"))
          [(n, ({} : NodeAttr))]) = [] := by simp
      rw [this]
      simp
    · intro p hp hdoc
      rcases List.mem_append.mp hp with hp | hp
      · exact h2 p hp hdoc
      · obtain ⟨k, hk⟩ := hdoc
        rw [List.mem_singleton.mp hp] at hk
        exact absurd hk (hfresh k)

theorem docFilterNames_congr {g g' : Graph} (h : g.nodes = g'.nodes) :
    docFilterNames g = docFilterNames g' := by
  unfold docFilterNames
  rw [h]

theorem DocTyped_congr {g g' : Graph} (h : g.nodes = g'.nodes) (h2 : DocTyped g) :
    DocTyped g' := by
  intro p hp
  exact h2 p (h ▸ hp)

theorem inv_addEdge_nodes {g : Graph} {u v : String} (rel : String) (w : Option ℚ)
    (hu : g.hasNode u = true ∨ ∀ k, u ≠ docName k)
    (hv : g.hasNode v = true ∨ ∀ k, v ≠ docName k) (h2 : DocTyped g) :
    docFilterNames (g.addEdge u v rel w) = docFilterNames g ∧
    DocTyped (g.addEdge u v rel w) := by
  have hn := addEdge_nodes g u v rel w
  have step1 : docFilterNames (g.ensureNode u) = docFilterNames g ∧
      DocTyped (g.ensureNode u) := by
    rcases hu with hu | hu
    · rw [ensureNode_of_hasNode hu]
      exact ⟨rfl, h2⟩
    · exact inv_ensureNode hu h2
  have step2 : docFilterNames ((g.ensureNode u).ensureNode v) = docFilterNames g ∧
      DocTyped ((g.ensureNode u).ensureNode v) := by
    rcases hv with hv | hv
    · rw [ensureNode_of_hasNode (hasNode_mono_ensureNode u hv)]
      exact step1
    · obtain ⟨a, b⟩ := inv_ensureNode hv step1.2
      exact ⟨a.trans step1.1, b⟩
  exact ⟨(docFilterNames_congr hn).trans step2.1, DocTyped_congr hn.symm step2.2⟩

theorem NoDocDocEdge_addEdge {g : Graph} {u v : String} (rel : String) (w : Option ℚ)
    (h3 : NoDocDocEdge g)
    (huv : ¬((∃ k, u = docName k) ∧ (∃ k, v = docName k))) :
    NoDocDocEdge (g.addEdge u v rel w) := by
  intro e he
  simp only [Graph.addEdge, ensureNode_edges] at he
  split at he
  · obtain ⟨e0, he0, hmap⟩ := List.mem_map.mp he
    split at hmap
    · rw [← hmap]
      exact h3 e0 he0
    · rw [← hmap]
      exact h3 e0 he0
  · rcases List.mem_append.mp he with he | he
    · exact h3 e he
    · rw [List.mem_singleton.mp he]
      exact huv

theorem inv_entityFold (i : Nat) :
    ∀ (ke : List (String × String)) (g : Graph),
      (∀ q ∈ ke, ∀ k, q.1 ≠ docName k) →
      g.hasNode (docName i) = true →
      DocTyped g → NoDocDocEdge g →
      docFilterNames (ke.foldl (fun g p =>
          (g.addEntityNode p.1 p.2).addEdge (docName i) p.1 "contains" none) g)
        = docFilterNames g ∧
      DocTyped (ke.foldl (fun g p =>
          (g.addEntityNode p.1 p.2).addEdge (docName i) p.1 "contains" none) g) ∧
      NoDocDocEdge (ke.foldl (fun g p =>
          (g.addEntityNode p.1 p.2).addEdge (docName i) p.1 "contains" none) g) := by
  intro ke
  induction ke with
  | nil => intro g _ _ h2 h3; exact ⟨rfl, h2, h3⟩
  | cons q ke ih =>
    intro g hfresh hdoc h2 h3
    have hqf : ∀ k, q.1 ≠ docName k := hfresh q (by simp)
    have s1 := inv_addEntityNode q.2 hqf h2
    have s2 := inv_addEdge_nodes "contains" none
      (Or.inl (hasNode_mono_addEntityNode q.1 q.2 hdoc))
      (Or.inl (hasNode_addEntityNode_self g q.1 q.2)) s1.2
    have s3 : NoDocDocEdge ((g.addEntityNode q.1 q.2).addEdge (docName i) q.1
        "contains" none) := by
      refine NoDocDocEdge_addEdge "contains" none ?_ ?_
      · intro e he
        rw [addEntityNode_edges] at he
        exact h3 e he
      · rintro ⟨_, k, hk⟩
        exact hqf k hk
    have hstep := ih ((g.addEntityNode q.1 q.2).addEdge (docName i) q.1 "contains" none)
      (fun q' hq' => hfresh q' (by simp [hq']))
      (hasNode_mono_addEdge _ _ _ _ (hasNode_mono_addEntityNode q.1 q.2 hdoc)) s2.2 s3
    exact ⟨hstep.1.trans (s2.1.trans s1.1), hstep.2.1, hstep.2.2⟩

theorem inv_applyTriples :
    ∀ (ts : List Triple) (g : Graph),
      (∀ t ∈ ts, (∀ k, t.1 ≠ docName k) ∧ (∀ k, t.2.2 ≠ docName k)) →
      DocTyped g → NoDocDocEdge g →
      docFilterNames (applyTriples g ts) = docFilterNames g ∧
      DocTyped (applyTriples g ts) ∧ NoDocDocEdge (applyTriples g ts) := by
  intro ts
  induction ts with
  | nil => intro g _ h2 h3; exact ⟨rfl, h2, h3⟩
  | cons t ts ih =>
    intro g hfresh h2 h3
    have htf := hfresh t (by simp)
    have s1 := inv_addEdge_nodes t.2.1 none (Or.inr htf.1) (Or.inr htf.2) h2
    have s2 : NoDocDocEdge (g.addEdge t.1 t.2.2 t.2.1 none) :=
      NoDocDocEdge_addEdge t.2.1 none h3 (by rintro ⟨⟨k, hk⟩, _⟩; exact htf.1 k hk)
    have hstep := ih (g.addEdge t.1 t.2.2 t.2.1 none)
      (fun t' ht' => hfresh t' (by simp [ht'])) s1.2 s2
    exact ⟨hstep.1.trans s1.1, hstep.2.1, hstep.2.2⟩

theorem inv_processChunk (nlp : String → NlpDoc)
    (rels : String → List (String × String) → List Triple)
    (hR : ∀ c ents, ∀ t ∈ rels c ents,
        t.1 ∈ ents.map Prod.fst ∧ t.2.2 ∈ ents.map Prod.fst)
    (g : Graph) (i : Nat) (c : String)
    (hF : ∀ e ∈ extract_key_entities (nlp (preprocess_text c)), ∀ k : Nat, e.1 ≠ docName k)
    (h1 : docFilterNames g = (List.range i).map docName)
    (h2 : DocTyped g) (h3 : NoDocDocEdge g) :
    docFilterNames (processChunk nlp rels g i c) = (List.range (i + 1)).map docName ∧
    DocTyped (processChunk nlp rels g i c) ∧ NoDocDocEdge (processChunk nlp rels g i c) := by
  unfold processChunk
  simp only []
  set c' := preprocess_text c with hc'
  set ke := extract_key_entities (nlp c') with hke
  have sA := inv_addDocNode c' h1 h2
  have sA3 : NoDocDocEdge (g.addDocNode (docName i) c') := by
    intro e he
    rw [addDocNode_edges] at he
    exact h3 e he
  have hdocA : (g.addDocNode (docName i) c').hasNode (docName i) = true :=
    hasNode_addNodeWith_self g (docName i) _
  have sB := inv_entityFold i ke (g.addDocNode (docName i) c')
    (fun q hq k => hF q hq k) hdocA sA.2 sA3
  have hfreshT : ∀ t ∈ rels c' ke ++ extract_family_relations (nlp c'),
      (∀ k, t.1 ≠ docName k) ∧ (∀ k, t.2.2 ≠ docName k) := by
    intro t ht
    have hmemke : ∀ x ∈ ke.map Prod.fst, ∀ k : Nat, x ≠ docName k := by
      intro x hx k
      obtain ⟨q, hq, rfl⟩ := List.mem_map.mp hx
      exact hF q hq k
    rcases List.mem_append.mp ht with ht | ht
    · obtain ⟨ha, hb⟩ := hR c' ke t ht
      exact ⟨hmemke _ ha, hmemke _ hb⟩
    · obtain ⟨ha, hb⟩ := family_endpoints ht
      exact ⟨hmemke _ (hke ▸ ha), hmemke _ (hke ▸ hb)⟩
  have sC := inv_applyTriples _ _ hfreshT sB.2.1 sB.2.2
  exact ⟨sC.1.trans (sB.1.trans sA.1), sC.2.1, sC.2.2⟩

theorem inv_phase1Aux (nlp : String → NlpDoc)
    (rels : String → List (String × String) → List Triple)
    (hR : ∀ c ents, ∀ t ∈ rels c ents,
        t.1 ∈ ents.map Prod.fst ∧ t.2.2 ∈ ents.map Prod.fst) :
    ∀ (cs : List String) (g : Graph) (i : Nat),
      (∀ c ∈ cs, ∀ e ∈ extract_key_entities (nlp (preprocess_text c)),
        ∀ k : Nat, e.1 ≠ docName k) →
      docFilterNames g = (List.range i).map docName →
      DocTyped g → NoDocDocEdge g →
      docFilterNames (phase1Aux nlp rels g i cs) = (List.range (i + cs.length)).map docName ∧
      DocTyped (phase1Aux nlp rels g i cs) ∧ NoDocDocEdge (phase1Aux nlp rels g i cs) := by
  intro cs
  induction cs with
  | nil => intro g i _ h1 h2 h3; exact ⟨by simpa using h1, h2, h3⟩
  | cons c cs ih =>
    intro g i hF h1 h2 h3
    have hstep := inv_processChunk nlp rels hR g i c (hF c (by simp)) h1 h2 h3
    have := ih (processChunk nlp rels g i c) (i + 1)
      (fun c' hc' => hF c' (by simp [hc'])) hstep.1 hstep.2.1 hstep.2.2
    refine ⟨?_, this.2.1, this.2.2⟩
    show docFilterNames (phase1Aux nlp rels (processChunk nlp rels g i c) (i + 1) cs)
      = List.map docName (List.range (i + (c :: cs).length))
    have harith : i + 1 + cs.length = i + (c :: cs).length := by
      simp only [List.length_cons]
      omega
    rw [this.1, harith]

/-- The attribute the similarity pass leaves on the pair `(doc_i, doc_j)`:
an edge labelled `similar` weighted with the cosine exactly when it exceeds
0.7, and no edge otherwise. -/
def simTarget {E : Type} (emb : List E) (cos : E → E → ℚ) (i j : Nat) : Option EdgeAttr :=
  match emb[i]?, emb[j]? with
  | some ei, some ej =>
    if 7/10 < cos ei ej then some ⟨"similar", some (cos ei ej)⟩ else none
  | _, _ => none

theorem getD_range_map {n i : Nat} (h : i < n) :
    ((List.range n).map docName).getD i "" = docName i := by
  rw [List.getD_eq_getElem?_getD, List.getElem?_map, List.getElem?_range h]
  rfl

theorem docPair_ne {a b i j : Nat} (hab : a < b) (hij : i < j) (hne : (a, b) ≠ (i, j)) :
    ¬((docName a = docName i ∧ docName b = docName j) ∨
      (docName a = docName j ∧ docName b = docName i)) := by
  rintro (⟨h1, h2⟩ | ⟨h1, h2⟩)
  · exact hne (by rw [docName_inj a i h1, docName_inj b j h2])
  · have e1 := docName_inj a j h1
    have e2 := docName_inj b i h2
    omega

theorem addSimPairs_run {E : Type} (n : Nat) (emb : List E) (cos : E → E → ℚ) :
    ∀ (P : List (Nat × Nat)) (g g' : Graph),
      (∀ q ∈ P, q.1 < q.2 ∧ q.2 < n) → n ≤ emb.length →
      addSimPairs ((List.range n).map docName) emb cos g P = .ok g' →
      ∀ i j, i < j → j < n →
        (g.edgeAttr? (docName i) (docName j) = none ∨
         g.edgeAttr? (docName i) (docName j) = simTarget emb cos i j) →
        g'.edgeAttr? (docName i) (docName j) =
          if (i, j) ∈ P then simTarget emb cos i j
          else g.edgeAttr? (docName i) (docName j) := by
  intro P
  induction P with
  | nil =>
    intro g g' _ _ h i j _ _ _
    rw [← Except.ok.inj h]
    simp
  | cons q P ih =>
    intro g g' hP hn h i j hij hjn hpre
    obtain ⟨a, b⟩ := q
    have hab := hP (a, b) (by simp)
    simp only [] at hab
    have hea : emb[a]? = some emb[a] := List.getElem?_eq_getElem (by omega)
    have heb : emb[b]? = some emb[b] := List.getElem?_eq_getElem (by omega)
    unfold addSimPairs at h
    rw [hea, heb] at h
    simp only [] at h
    rw [getD_range_map (show a < n by omega), getD_range_map (show b < n by omega)] at h
    set g1 := if 7/10 < cos emb[a] emb[b] then
        g.addEdge (docName a) (docName b) "similar" (some (cos emb[a] emb[b]))
      else g with hg1
    by_cases hsame : (a, b) = (i, j)
    · obtain ⟨rfl, rfl⟩ := Prod.mk.injEq .. ▸ hsame
      have htar : simTarget emb cos a b =
          if 7/10 < cos emb[a] emb[b] then
            some ⟨"similar", some (cos emb[a] emb[b])⟩ else none := by
        unfold simTarget
        rw [hea, heb]
      have hg1attr : g1.edgeAttr? (docName a) (docName b) = simTarget emb cos a b := by
        rw [hg1, htar]
        split
        · rw [edgeAttr?_addEdge_self]
        · rcases hpre with hpre | hpre
          · exact hpre
          · rw [hpre, htar]
            split
            · simp_all
            · rfl
      have := ih g1 g' (fun q hq => hP q (by simp [hq])) hn h a b hij hjn
        (Or.inr hg1attr)
      rw [this, if_pos (show (a, b) ∈ (a, b) :: P by simp)]
      split
      · rfl
      · rw [hg1attr]
    · have hg1attr : g1.edgeAttr? (docName i) (docName j) =
          g.edgeAttr? (docName i) (docName j) := by
        rw [hg1]
        split
        · exact edgeAttr?_addEdge_other g _ _ _ _ _ _
            (docPair_ne (by omega) hij hsame)
        · rfl
      have := ih g1 g' (fun q hq => hP q (by simp [hq])) hn h i j hij hjn
        (by rw [hg1attr]; exact hpre)
      rw [this, hg1attr]
      have hne2 : (i, j) ≠ (a, b) := fun hc => hsame hc.symm
      by_cases hmem : (i, j) ∈ P
      · rw [if_pos hmem, if_pos (by simp [List.mem_cons, hmem])]
      · rw [if_neg hmem, if_neg (by simp [List.mem_cons, hne2, hmem])]

theorem addSimPairs_ok {E : Type} (docs : List String) (emb : List E) (cos : E → E → ℚ) :
    ∀ (P : List (Nat × Nat)) (g : Graph),
      (∀ q ∈ P, q.1 < emb.length ∧ q.2 < emb.length) →
      ∃ g', addSimPairs docs emb cos g P = .ok g' := by
  intro P
  induction P with
  | nil => intro g _; exact ⟨g, rfl⟩
  | cons q P ih =>
    intro g hP
    obtain ⟨a, b⟩ := q
    have hab := hP (a, b) (by simp)
    simp only [] at hab
    have hea : emb[a]? = some emb[a] := List.getElem?_eq_getElem (by omega)
    have heb : emb[b]? = some emb[b] := List.getElem?_eq_getElem (by omega)
    unfold addSimPairs
    rw [hea, heb]
    simp only []
    exact ih _ (fun q hq => hP q (by simp [hq]))

theorem addSimPairs_err {E : Type} (docs : List String) (emb : List E) (cos : E → E → ℚ) :
    ∀ (P : List (Nat × Nat)) (g : Graph),
      (∃ q ∈ P, emb.length ≤ q.1 ∨ emb.length ≤ q.2) →
      addSimPairs docs emb cos g P = .error .indexError := by
  intro P
  induction P with
  | nil => simp
  | cons q P ih =>
    intro g hP
    obtain ⟨a, b⟩ := q
    unfold addSimPairs
    cases hea : emb[a]? with
    | none => rfl
    | some ea =>
      cases heb : emb[b]? with
      | none => rfl
      | some eb =>
        simp only []
        have ha : a < emb.length := by
          by_contra hc
          rw [List.getElem?_eq_none (by omega)] at hea
          exact Option.noConfusion hea
        have hb : b < emb.length := by
          by_contra hc
          rw [List.getElem?_eq_none (by omega)] at heb
          exact Option.noConfusion heb
        obtain ⟨q', hq', hbad⟩ := hP
        rcases List.mem_cons.mp hq' with rfl | hq'
        · simp only [] at hbad
          omega
        · exact ih _ ⟨q', hq', hbad⟩

theorem edgeAttr?_none_of_NoDocDoc {g : Graph} (h3 : NoDocDocEdge g) (i j : Nat) :
    g.edgeAttr? (docName i) (docName j) = none := by
  unfold Graph.edgeAttr?
  cases hf : g.edges.find? (edgeKeyMatch (docName i) (docName j)) with
  | none => rfl
  | some e =>
    have hm := List.mem_of_find?_eq_some hf
    have hp := List.find?_some hf
    simp only [edgeKeyMatch, Bool.or_eq_true, Bool.and_eq_true, decide_eq_true_eq] at hp
    exfalso
    rcases hp with ⟨h1, h2⟩ | ⟨h1, h2⟩
    · exact h3 e hm ⟨⟨i, h1⟩, ⟨j, h2⟩⟩
    · exact h3 e hm ⟨⟨j, h1⟩, ⟨i, h2⟩⟩

theorem simTarget_symm {E : Type} (emb : List E) (cos : E → E → ℚ)
    (hsym : ∀ a b, cos a b = cos b a) (i j : Nat) :
    simTarget emb cos j i = simTarget emb cos i j := by
  unfold simTarget
  cases emb[i]? with
  | none => cases emb[j]? <;> rfl
  | some ei =>
    cases emb[j]? with
    | none => rfl
    | some ej =>
      show (if 7/10 < cos ej ei then
          some ({ relation := "similar", weight := some (cos ej ei) } : EdgeAttr) else none) =
        (if 7/10 < cos ei ej then
          some ({ relation := "similar", weight := some (cos ei ej) } : EdgeAttr) else none)
      rw [hsym ej ei]

theorem docNodesOf_phase1 (nlp : String → NlpDoc)
    (rels : String → List (String × String) → List Triple)
    (hR : ∀ c ents, ∀ t ∈ rels c ents,
        t.1 ∈ ents.map Prod.fst ∧ t.2.2 ∈ ents.map Prod.fst)
    (data : List String)
    (hF : ∀ c ∈ data, ∀ e ∈ extract_key_entities (nlp (preprocess_text c)),
        ∀ k : Nat, e.1 ≠ docName k) :
    docNodesOf (phase1 nlp rels data) = .ok ((List.range data.length).map docName) ∧
    NoDocDocEdge (phase1 nlp rels data) := by
  have hinv := inv_phase1Aux nlp rels hR data nxEmpty 0 hF (by rfl)
    (by intro p hp; simp [nxEmpty] at hp) (by intro e he; simp [nxEmpty] at he)
  have hty : (phase1 nlp rels data).nodes.any (fun p => decide (p.2.type = none)) = false := by
    by_contra hc
    simp only [Bool.not_eq_false, List.any_eq_true, decide_eq_true_eq] at hc
    obtain ⟨p, hp, hnone⟩ := hc
    exact phase1Aux_alltyped nlp rels hR data nxEmpty 0
      (by intro p hp; simp [nxEmpty] at hp) p hp hnone
  constructor
  · unfold docNodesOf
    rw [if_neg (by rw [hty]; exact Bool.false_ne_true)]
    show Except.ok (docFilterNames (phase1Aux nlp rels nxEmpty 0 data))
      = Except.ok ((List.range data.length).map docName)
    rw [hinv.1, Nat.zero_add]
  · exact hinv.2.2

/-- C3: in the raw (pre-prune) graph built from chunks and embeddings of
equal length (with triple endpoints among the chunk's key entities and no
extracted entity literally named `doc_k`), a similarity edge between the
chunk nodes `doc_i` and `doc_j` exists iff the cosine of embeddings i and j
exceeds 0.7; when present it is labelled `similar` and stores exactly that
cosine, so every similarity-edge weight lies in (0.7, 1]. -/
theorem similarity_edge_characterization {E : Type} (nlp : String → NlpDoc)
    (rels : String → List (String × String) → List Triple)
    (data : List String) (emb : List E) (cos : E → E → ℚ)
    (hR : ∀ c ents, ∀ t ∈ rels c ents,
        t.1 ∈ ents.map Prod.fst ∧ t.2.2 ∈ ents.map Prod.fst)
    (hF : ∀ c ∈ data, ∀ e ∈ extract_key_entities (nlp (preprocess_text c)),
        ∀ k : Nat, e.1 ≠ docName k)
    (hlen : data.length = emb.length)
    (hsym : ∀ a b, cos a b = cos b a)
    (hbound : ∀ a b, cos a b ≤ 1) :
    ∃ G, create_networkx_graph nlp rels data emb cos = .ok G ∧
      ∀ i j, i < data.length → j < data.length → i ≠ j →
        (G.edgeAttr? (docName i) (docName j) = simTarget emb cos i j) ∧
        (∀ a w, G.edgeAttr? (docName i) (docName j) = some a → a.weight = some w →
          a.relation = "similar" ∧ 7/10 < w ∧ w ≤ 1) := by
  obtain ⟨hdocs, hnodd⟩ := docNodesOf_phase1 nlp rels hR data hF
  obtain ⟨G, hok⟩ := addSimPairs_ok ((List.range data.length).map docName) emb cos
    (idxPairs data.length) (phase1 nlp rels data)
    (fun q hq => by
      obtain ⟨h1, h2⟩ := mem_idxPairs.mp hq
      omega)
  have hcreate : create_networkx_graph nlp rels data emb cos = .ok G := by
    unfold create_networkx_graph
    simp only [Bind.bind, Except.bind]
    rw [hdocs]
    simp only [List.length_map, List.length_range]
    exact hok
  refine ⟨G, hcreate, ?_⟩
  have hchar : ∀ i j, i < j → j < data.length →
      G.edgeAttr? (docName i) (docName j) = simTarget emb cos i j := by
    intro i j hij hjn
    have := addSimPairs_run data.length emb cos (idxPairs data.length)
      (phase1 nlp rels data) G (fun q hq => mem_idxPairs.mp hq) (by omega) hok i j hij hjn
      (Or.inl (edgeAttr?_none_of_NoDocDoc hnodd i j))
    rw [this, if_pos (mem_idxPairs.mpr ⟨hij, hjn⟩)]
  intro i j hi hj hne
  have hconj1 : G.edgeAttr? (docName i) (docName j) = simTarget emb cos i j := by
    rcases Nat.lt_or_ge i j with h | h
    · exact hchar i j h hj
    · have hji : j < i := by omega
      rw [edgeAttr?_symm, hchar j i hji hi, simTarget_symm emb cos hsym]
  refine ⟨hconj1, ?_⟩
  intro a w ha hw
  rw [hconj1] at ha
  unfold simTarget at ha
  cases hei : emb[i]? with
  | none => rw [hei] at ha; cases emb[j]? <;> simp at ha
  | some ei =>
    cases hej : emb[j]? with
    | none => rw [hei, hej] at ha; simp at ha
    | some ej =>
      rw [hei, hej] at ha
      have ha2 : (if 7/10 < cos ei ej then
          some ({ relation := "similar", weight := some (cos ei ej) } : EdgeAttr)
          else none) = some a := ha
      by_cases hcos : 7/10 < cos ei ej
      · rw [if_pos hcos] at ha2
        obtain rfl := Option.some.inj ha2
        have hwe : cos ei ej = w := Option.some.inj hw
        exact ⟨rfl, by rw [← hwe]; exact hcos, by rw [← hwe]; exact hbound ei ej⟩
      · rw [if_neg hcos] at ha2
        exact Option.noConfusion ha2

def nlpPlain : String → NlpDoc := fun _ => ⟨[]⟩

def relsPlain : String → List (String × String) → List Triple := fun _ _ => []

theorem similarity_edge_characterization_witness :
    ∃ G, create_networkx_graph nlpPlain relsPlain ["a", "b"] [(), ()] (fun _ _ => 9/10)
        = .ok G ∧
      ∀ i j, i < (["a", "b"] : List String).length → j < (["a", "b"] : List String).length →
        i ≠ j →
        (G.edgeAttr? (docName i) (docName j)
          = simTarget [(), ()] (fun _ _ => (9 : ℚ)/10) i j) ∧
        (∀ a w, G.edgeAttr? (docName i) (docName j) = some a → a.weight = some w →
          a.relation = "similar" ∧ 7/10 < w ∧ w ≤ 1) := by
  exact similarity_edge_characterization nlpPlain relsPlain ["a", "b"] [(), ()]
    (fun _ _ => 9/10)
    (fun c ents t ht => absurd ht (List.not_mem_nil t))
    (by intro c hc e he; simp [nlpPlain, extract_key_entities, NlpDoc.ents] at he)
    rfl (fun _ _ => rfl) (fun _ _ => by norm_num)

/-- C1 amended: `create_networkx_graph` performs no input validation and has
no `InvalidInput` error. With compatible lengths (chunks ≤ embeddings) it
silently returns a graph, extra embeddings ignored; with at least two
chunks and fewer embeddings than chunks the similarity pass fails with an
IndexError from `embeddings[i]`; with fewer than two chunks a length
mismatch goes entirely unnoticed. -/
theorem create_networkx_graph_validation {E : Type} (nlp : String → NlpDoc)
    (rels : String → List (String × String) → List Triple)
    (data : List String) (emb : List E) (cos : E → E → ℚ)
    (hR : ∀ c ents, ∀ t ∈ rels c ents,
        t.1 ∈ ents.map Prod.fst ∧ t.2.2 ∈ ents.map Prod.fst)
    (hF : ∀ c ∈ data, ∀ e ∈ extract_key_entities (nlp (preprocess_text c)),
        ∀ k : Nat, e.1 ≠ docName k) :
    (data.length ≤ emb.length →
        ∃ G, create_networkx_graph nlp rels data emb cos = .ok G) ∧
    (2 ≤ data.length → emb.length < data.length →
        create_networkx_graph nlp rels data emb cos = .error .indexError) := by
  obtain ⟨hdocs, _⟩ := docNodesOf_phase1 nlp rels hR data hF
  constructor
  · intro hle
    obtain ⟨G, hok⟩ := addSimPairs_ok ((List.range data.length).map docName) emb cos
      (idxPairs data.length) (phase1 nlp rels data)
      (fun q hq => by
        obtain ⟨h1, h2⟩ := mem_idxPairs.mp hq
        omega)
    refine ⟨G, ?_⟩
    unfold create_networkx_graph
    simp only [Bind.bind, Except.bind]
    rw [hdocs]
    simp only [List.length_map, List.length_range]
    exact hok
  · intro h2 hlt
    unfold create_networkx_graph
    simp only [Bind.bind, Except.bind]
    rw [hdocs]
    simp only [List.length_map, List.length_range]
    refine addSimPairs_err _ emb cos (idxPairs data.length) (phase1 nlp rels data)
      ⟨(data.length - 2, data.length - 1), mem_idxPairs.mpr ⟨by omega, by omega⟩,
        Or.inr (by omega)⟩

/-- C1 counterexample: a mismatched input (one chunk, zero embeddings) on
which `create_networkx_graph` raises nothing at all and silently returns a
graph: there is no InvalidInput validation in the source. -/
theorem create_networkx_graph_validation_counterexample :
    create_networkx_graph nlpPlain relsPlain ["x"] ([] : List Unit) (fun _ _ => 0)
      = .ok ⟨[("doc_0", { type := some "document", text := some "x" })], []⟩ ∧
    (["x"] : List String).length ≠ ([] : List Unit).length := by
  exact ⟨by decide, by decide⟩

theorem create_networkx_graph_validation_witness :
    (∃ G, create_networkx_graph nlpPlain relsPlain ["a", "b"] [(), ()] (fun _ _ => 0)
        = .ok G) ∧
    create_networkx_graph nlpPlain relsPlain ["a", "b"] [()] (fun _ _ => (0 : ℚ))
      = .error .indexError := by
  constructor
  · exact (create_networkx_graph_validation nlpPlain relsPlain ["a", "b"] [(), ()]
      (fun _ _ => 0) (fun c ents t ht => absurd ht (List.not_mem_nil t))
      (by intro c hc e he; simp [nlpPlain, extract_key_entities, NlpDoc.ents] at he)).1
      (by norm_num)
  · exact (create_networkx_graph_validation nlpPlain relsPlain ["a", "b"] [()]
      (fun _ _ => 0) (fun c ents t ht => absurd ht (List.not_mem_nil t))
      (by intro c hc e he; simp [nlpPlain, extract_key_entities, NlpDoc.ents] at he)).2
      (by norm_num) (by norm_num)
